import Mathlib

/-!
A verification development for the `nikola` static site generator
(`nikola/nikola.py`).  The Python code is shallowly embedded: pure helper
functions become Lean functions, the mutable scan state becomes explicit
state passing, CPython-2 dictionaries are modelled as insertion-ordered
association lists (their hash-table iteration order is unspecified; the
insertion order is the most deterministic reading), raised exceptions become
`Option`/`Except`, and `os.sep` is taken to be `"/"`.
-/

/-! ### Python string primitives -/

/-- Model of Python `str.strip()`: drop whitespace from both ends. -/
def pyStrip (s : String) : String :=
  ⟨((s.data.dropWhile Char.isWhitespace).reverse.dropWhile
    Char.isWhitespace).reverse⟩

/-- Splitting a character list on commas; the empty list splits to one
empty group, as Python's `split(',')` does. -/
def splitCommaChars : List Char → List (List Char)
  | [] => [[]]
  | c :: rest =>
      if c = ',' then [] :: splitCommaChars rest
      else
        match splitCommaChars rest with
        | [] => [[c]]
        | g :: gs => (c :: g) :: gs

/-- Model of Python `s.split(',')` (on the empty string it yields `[""]`). -/
def pySplitComma (s : String) : List String :=
  (splitCommaChars s.data).map (fun l => ⟨l⟩)

/-- Model of Python `filter(None, xs)` on a list of strings: drop the falsy
(empty) ones. -/
def filterTruthy (xs : List String) : List String := xs.filter (fun x => x ≠ "")

/-- Model of `'/'.join(xs)`. -/
def joinSlash : List String → String
  | [] => ""
  | [x] => x
  | x :: y :: xs => x ++ "/" ++ joinSlash (y :: xs)

/-- Model of `a or b` for Python strings: `b` when `a` is empty. -/
def pyOr (a b : String) : String := if a = "" then b else a

/-- Model of `os.path.join(a, b)` for a relative second component. -/
def osPathJoin2 (a b : String) : String := a ++ "/" ++ b

/-! ### The staleness fingerprint (`config_changed`, nikola.py 28-51) -/

/-- A Python object as far as `config_changed` inspects one: a string, an
int, a flat dictionary (its entries listed in iteration order, with the
int keys and string values the claims exercise), or a list.  Anything that
is neither a `basestring` nor a `dict` triggers the `raise`. -/
inductive PyObj where
  | str (s : String)
  | int (n : Int)
  | dict (entries : List (Int × String))
  | pylist (xs : List Int)
deriving DecidableEq, Repr

/-- The name `type(x)` prints for each modelled shape. -/
def pyTypeName : PyObj → String
  | .str _ => "<type 'str'>"
  | .int _ => "<type 'int'>"
  | .dict _ => "<type 'dict'>"
  | .pylist _ => "<type 'list'>"

/-- Model of `cPickle.dumps`: a byte-faithful serialization that walks a
dictionary in its iteration order (which is what `cPickle` does). -/
def cPickleDumps : PyObj → String
  | .str s => "S" ++ toString s.length ++ ":" ++ s
  | .int n => "I" ++ toString n ++ ";"
  | .dict es =>
      "D" ++ String.join (es.map (fun kv =>
        "I" ++ toString kv.1 ++ ";" ++ "S" ++ toString kv.2.length ++ ":" ++ kv.2)) ++ "E"
  | .pylist xs => "L" ++ String.join (xs.map (fun n => "I" ++ toString n ++ ";")) ++ "E"

/-- `hashlib.md5(data).hexdigest()` modelled as an injective digest function:
MD5 is treated as collision-free, so only equality of its inputs matters. -/
def md5hex (s : String) : String := "md5:" ++ s

/-- The `config_digest` computed by `config_changed.__call__`
(nikola.py 34-42); `none` for the shapes that make it `raise`. -/
def configDigest : PyObj → Option String
  | .str s => some s
  | .dict es => some (md5hex (cPickleDumps (.dict es)))
  | _ => none

/-- What one `config_changed.__call__` leaves behind: the digest recorded by
the inserted `_save_config` action, and the up-to-date verdict returned to
the scheduler. -/
structure UptodateResult where
  digest : String
  uptodate : Bool
deriving DecidableEq, Repr

/-- Model of `config_changed.__call__` (nikola.py 33-51).  `values` is the
persisted `'_config_changed'` entry (absent on a first run); `Except.error`
models the raised `Exception`. -/
def configChangedCall (config : PyObj) (values : Option String) :
    Except String UptodateResult :=
  match configDigest config with
  | none =>
      .error ("Invalid type of config_changed parameter got " ++ pyTypeName config ++
        ", must be string or dict")
  | some d =>
      match values with
      | none => .ok ⟨d, false⟩
      | some last => .ok ⟨d, decide (last = d)⟩

/-! ### The path/permalink resolver (`Nikola.path`, nikola.py 218-275) -/

/-- The configuration keys `Nikola.path` and the task generators read.
`TRANSLATIONS` is the language → path-prefix dictionary, modelled as a
lookup function (the languages iterated over are passed separately where
the code iterates the dictionary). -/
structure SiteConfig where
  TRANSLATIONS : String → String
  TAG_PATH : String
  INDEX_PATH : String
  RSS_PATH : String
  ARCHIVE_PATH : String
  GALLERY_PATH : String
  OUTPUT_FOLDER : String

/-- The `kind`/`name` argument pairs of `Nikola.path`, each kind's name
payload typed as the call sites supply it (`index` gets a page number,
`archive` gets a year string or `None`). -/
inductive PathKind where
  | tagIndex
  | tag (name : String)
  | tagRss (name : String)
  | index (name : Nat)
  | rss
  | archive (name : Option String)
  | gallery (name : String)
deriving DecidableEq, Repr

/-- Python truthiness of the `archive` branch's `name` (`if name:`). -/
def archiveNameTruthy : Option String → Bool
  | none => false
  | some s => s ≠ ""

/-- The component list each branch of `Nikola.path` builds before joining
(nikola.py 241-271); every branch is a `filter(None, [...])`. -/
def pathComponents (cfg : SiteConfig) (lang : String) : PathKind → List String
  | .tagIndex =>
      filterTruthy [cfg.TRANSLATIONS lang, cfg.TAG_PATH, "index.html"]
  | .tag name =>
      filterTruthy [cfg.TRANSLATIONS lang, cfg.TAG_PATH, name ++ ".html"]
  | .tagRss name =>
      filterTruthy [cfg.TRANSLATIONS lang, cfg.TAG_PATH, name ++ ".xml"]
  | .index name =>
      if name > 0 then
        filterTruthy [cfg.TRANSLATIONS lang, cfg.INDEX_PATH,
          "index-" ++ toString name ++ ".html"]
      else
        filterTruthy [cfg.TRANSLATIONS lang, cfg.INDEX_PATH, "index.html"]
  | .rss =>
      filterTruthy [cfg.TRANSLATIONS lang, cfg.RSS_PATH, "rss.xml"]
  | .archive name =>
      if archiveNameTruthy name then
        filterTruthy [cfg.TRANSLATIONS lang, cfg.ARCHIVE_PATH,
          name.getD "", "index.html"]
      else
        filterTruthy [cfg.TRANSLATIONS lang, cfg.ARCHIVE_PATH, "archive.html"]
  | .gallery name =>
      filterTruthy [cfg.GALLERY_PATH, name, "index.html"]

/-- `Nikola.path` with `is_link=False` (the platform separator taken as
`"/"`): the output-relative path. -/
def nikolaPath (cfg : SiteConfig) (kind : PathKind) (lang : String) : String :=
  joinSlash (pathComponents cfg lang kind)

/-- `Nikola.link` = `Nikola.path` with `is_link=True`. -/
def nikolaLink (cfg : SiteConfig) (kind : PathKind) (lang : String) : String :=
  "/" ++ joinSlash (pathComponents cfg lang kind)

/-! ### The relative-URL rewriter (`Nikola.rel_link`, nikola.py 280-299) -/

/-- An absolute URL as `urlparse.urlsplit` decomposes one: scheme, netloc,
and `path.split('/')[1:]` (the path of an absolute URL starts with `/`, so
the leading empty component is dropped).  For absolute inputs the two
`urljoin` normalization lines of `rel_link` are the identity, so the model
takes the split form directly. -/
structure SplitUrl where
  scheme : String
  netloc : String
  pathElems : List String
deriving DecidableEq, Repr

/-- The textual form of a split URL (what `rel_link` returns verbatim when
the sites differ). -/
def SplitUrl.render (u : SplitUrl) : String :=
  u.scheme ++ "://" ++ u.netloc ++ "/" ++ joinSlash u.pathElems

/-- Index of the first position where the two element lists differ — the
`break` of the `for ... else` loop in `rel_link`. -/
def firstMismatch : List String → List String → Option Nat
  | s :: ss, d :: ds => if s ≠ d then some 0 else (firstMismatch ss ds).map (· + 1)
  | _, _ => none

/-- Final value of `i` after the `for ... else` loop of `rel_link`: the loop
index at the `break`, or — when the loop exhausts `zip(!src, dst)` — one more
than the last loop index (one more than the initial `i = 0` when the zip was
empty). -/
def relLinkI (s d : List String) : Nat :=
  match firstMismatch s d with
  | some j => j
  | none => if min s.length d.length = 0 then 1 else min s.length d.length

/-- The component list `['..'] * (len(src_elems) - i - 1) + dst_elems[i:]`;
Python's negative list multiplier yields `[]`, exactly like truncated `Nat`
subtraction. -/
def relLinkParts (s d : List String) : List String :=
  List.replicate (s.length - relLinkI s d - 1) ".." ++ d.drop (relLinkI s d)

/-- Model of `Nikola.rel_link` on absolute URLs. -/
def relLink (src dst : SplitUrl) : String :=
  if src.scheme = dst.scheme ∧ src.netloc = dst.netloc then
    joinSlash (relLinkParts src.pathElems dst.pathElems)
  else
    dst.render

/-- Modelled from the spec: the missing notion the `rel_link` contract
appeals to — a `../`-style relative reference written from the document
`s` (whose last path element is the document name) resolves to the absolute
path `d` iff climbing `k` directories from `s`'s directory and descending
through the nonempty component list `tail` lands on `d`. -/
def ResolvesTo (s d : List String) (k : Nat) (tail : List String) : Prop :=
  k + 1 ≤ s.length ∧ tail ≠ [] ∧ s.take (s.length - 1 - k) ++ tail = d

instance (s d : List String) (k : Nat) (tail : List String) :
    Decidable (ResolvesTo s d k tail) := by
  unfold ResolvesTo; infer_instance

/-! ### The content entity (`Post`, nikola.py 53-156) -/

/-- A parsed `datetime.datetime` as `cmp(a.date, b.date)` and `.year` use it:
the year plus the remaining fields collapsed into a minute count, compared
lexicographically. -/
structure PyDateTime where
  year : Nat
  minuteOfYear : Nat
deriving DecidableEq, Repr

/-- `cmp(a, b) <= 0` on two datetimes. -/
def dateLe (a b : PyDateTime) : Prop :=
  a.year < b.year ∨ (a.year = b.year ∧ a.minuteOfYear ≤ b.minuteOfYear)

instance (a b : PyDateTime) : Decidable (dateLe a b) := by
  unfold dateLe; infer_instance

/-- The file system as `codecs.open(path).readlines()` sees it: `none` when
the open (or read) raises — absent or unreadable file — otherwise the list
of the file's lines. -/
def FileSys := String → Option (List String)

/-- `os.path.splitext(p)[0]` on the reversed character list: chop the last
`.`-extension of the final path segment.  (The CPython corner case of a
basename consisting only of leading dots is not modelled; no claim and no
call site exercises it.) -/
def splitextRootAux : List Char → Option (List Char)
  | [] => none
  | c :: rest =>
      if c = '.' then some rest
      else if c = '/' then none
      else splitextRootAux rest

/-- `os.path.splitext(p)[0]`. -/
def splitextRoot (p : String) : String :=
  match splitextRootAux p.data.reverse with
  | some rest => ⟨rest.reverse⟩
  | none => p

/-- `while len(meta_data) < 5: meta_data.append("")`. -/
def padTo5 (xs : List String) : List String :=
  xs ++ List.replicate (5 - xs.length) ""

/-- `while len(meta_data) < 2: meta_data.append("")`. -/
def padTo2 (xs : List String) : List String :=
  xs ++ List.replicate (2 - xs.length) ""

/-- The per-language title and pagename loaded by the translation loop of
`Post.__init__` (nikola.py 91-106): the default pair for the default
language; otherwise the override file's first two stripped lines, each
falling back to the default through `or` when empty, and the whole read
falling back through the bare `except:` when the file cannot be read. -/
def overrideVals (fs : FileSys) (metadata_path default_title default_pagename
    default_lang : String) (lang : String) : String × String :=
  if lang = default_lang then (default_title, default_pagename)
  else
    match fs (metadata_path ++ "." ++ lang) with
    | none => (default_title, default_pagename)
    | some ls =>
        let md := padTo2 (ls.map pyStrip)
        (pyOr (md.getD 0 "") default_title, pyOr (md.getD 1 "") default_pagename)

/-- The constructed entity: the attributes `Post.__init__` stores. -/
structure PostModel where
  source_path : String
  post_name : String
  base_path : String
  metadata_path : String
  folder : String
  use_in_feeds : Bool
  date : PyDateTime
  tags : List String
  link : String
  titles : List (String × String)
  pagenames : List (String × String)
deriving DecidableEq, Repr

/-- Model of `Post.__init__` (nikola.py 57-106).  `dparse` abstracts the
external `datetime.datetime.strptime(-, '%Y/%m/%d %H:%M')`; `none` models a
raised exception (unreadable primary metadata or unparsable date), which
aborts construction. -/
def postInit (dparse : String → Option PyDateTime) (fs : FileSys)
    (source_path destination : String) (use_in_feeds : Bool)
    (translations : List (String × String)) (default_lang : String) :
    Option PostModel :=
  let post_name := splitextRoot source_path
  let metadata_path := post_name ++ ".meta"
  match fs metadata_path with
  | none => none
  | some meta_lines =>
      let m := (padTo5 meta_lines).map pyStrip
      let default_title := m.getD 0 ""
      let default_pagename := m.getD 1 ""
      let date_str := m.getD 2 ""
      let tags_str := m.getD 3 ""
      let link := m.getD 4 ""
      match dparse date_str with
      | none => none
      | some date =>
          let tags := filterTruthy ((pySplitComma tags_str).map pyStrip)
          some
            { source_path := source_path
              post_name := post_name
              base_path := post_name ++ ".html"
              metadata_path := metadata_path
              folder := destination
              use_in_feeds := use_in_feeds
              date := date
              tags := tags
              link := link
              titles := translations.map (fun lt =>
                (lt.1, (overrideVals fs metadata_path default_title
                  default_pagename default_lang lt.1).1))
              pagenames := translations.map (fun lt =>
                (lt.1, (overrideVals fs metadata_path default_title
                  default_pagename default_lang lt.1).2)) }

/-- `Post.title(lang)`: the `titles` dictionary lookup (`none` models the
`KeyError` for an unconfigured language). -/
def PostModel.title (p : PostModel) (lang : String) : Option String :=
  p.titles.lookup lang

/-- The `pagenames` dictionary lookup. -/
def PostModel.pagename (p : PostModel) (lang : String) : Option String :=
  p.pagenames.lookup lang

/-! ### The corpus scanner (`Nikola.scan_posts`, nikola.py 384-404) -/

/-- `dateLe` on whole posts: the comparator `cmp(a.date, b.date)` of the
timeline sort. -/
def postDateLe (a b : PostModel) : Prop := dateLe a.date b.date

instance (a b : PostModel) : Decidable (postDateLe a b) := by
  unfold postDateLe; infer_instance

/-- The mutable scan state a `Nikola` instance carries
(`__init__`, nikola.py 169-173). -/
structure ScanState where
  global_data : List (String × PostModel)
  posts_per_year : List (String × List String)
  posts_per_tag : List (String × List String)
  timeline : List PostModel
  scanned : Bool
deriving Repr

/-- The state right after `Nikola.__init__`. -/
def initialScanState : ScanState :=
  { global_data := [], posts_per_year := [], posts_per_tag := [],
    timeline := [], scanned := false }

/-- `d[k] = v` on an insertion-ordered dictionary: overwrite in place, or
append a fresh key. -/
def dictSet {α : Type} (d : List (String × α)) (k : String) (v : α) :
    List (String × α) :=
  if (d.lookup k).isSome then
    d.map (fun kv => if kv.1 = k then (k, v) else kv)
  else d ++ [(k, v)]

/-- `defaultdict(list)`: `d[k].append(v)`. -/
def ddAppend (d : List (String × List String)) (k v : String) :
    List (String × List String) :=
  match d.lookup k with
  | some xs => dictSet d k (xs ++ [v])
  | none => d ++ [(k, [v])]

/-- The body of the scan loop for one constructed post (nikola.py 395-398). -/
def scanInsert (st : ScanState) (p : PostModel) : ScanState :=
  { st with
    global_data := dictSet st.global_data p.post_name p
    posts_per_year := ddAppend st.posts_per_year (toString p.date.year) p.post_name
    posts_per_tag := p.tags.foldl (fun d tag => ddAppend d tag p.post_name)
      st.posts_per_tag }

/-- Model of `Nikola.scan_posts`.  The `glob.glob` + `Post(...)` construction
step is abstracted into `found`: the successfully constructed posts in scan
order.  The timeline appends every `global_data` value, sorts ascending by
date with Python's stable `list.sort` (modelled by the stable
`List.insertionSort`), then reverses. -/
def scanPosts (found : List PostModel) (st : ScanState) : ScanState :=
  if st.scanned then st
  else
    let st1 := found.foldl scanInsert st
    let items := st1.global_data.map Prod.snd
    { st1 with
      timeline := (List.insertionSort postDateLe (st1.timeline ++ items)).reverse
      scanned := true }

/-! ### The paginated index (`Nikola.gen_task_render_indexes`, nikola.py 518-569) -/

/-- `while posts: lists.append(posts[:10]); posts = posts[10:]`. -/
def chunk10 {α : Type} : List α → List (List α)
  | [] => []
  | x :: xs => ((x :: xs).take 10) :: chunk10 ((x :: xs).drop 10)
termination_by l => l.length
decreasing_by simp; omega

/-- One rendered-index task: the context fields `gen_task_render_indexes`
sets for page `i`, the joined output name, and the page's post list. -/
structure IndexTask where
  lang : String
  page : Nat
  prevlink : Option String
  nextlink : Option String
  permalink : String
  output_name : String
  posts : List PostModel
deriving Repr

/-- The task built for page `i` of `num_pages` (nikola.py 542-569). -/
def mkIndexTask (cfg : SiteConfig) (num_pages : Nat) (lang : String)
    (i : Nat) (post_list : List PostModel) : IndexTask :=
  { lang := lang
    page := i
    prevlink :=
      if i > 1 then some ("index-" ++ toString (i - 1) ++ ".html")
      else if i = 1 then some "index.html"
      else none
    nextlink :=
      if i < num_pages - 1 then some ("index-" ++ toString (i + 1) ++ ".html")
      else none
    permalink := nikolaLink cfg (.index i) lang
    output_name := osPathJoin2 cfg.OUTPUT_FOLDER (nikolaPath cfg (.index i) lang)
    posts := post_list }

/-- The feed-eligible posts of the timeline, in timeline order
(`[x for x in self.timeline if x.use_in_feeds]`). -/
def feedPosts (timeline : List PostModel) : List PostModel :=
  timeline.filter (fun p => p.use_in_feeds)

/-- The per-language task list of `gen_task_render_indexes`. -/
def indexTasksFor (cfg : SiteConfig) (timeline : List PostModel)
    (lang : String) : List IndexTask :=
  let lists := chunk10 (feedPosts timeline)
  lists.enum.map (fun ip => mkIndexTask cfg lists.length lang ip.1 ip.2)

/-- Model of `Nikola.gen_task_render_indexes`: all index-rendering tasks of
one build (the zero-post placeholder task carries no context and no target
and is not represented). -/
def genTaskRenderIndexes (cfg : SiteConfig) (langs : List String)
    (timeline : List PostModel) : List IndexTask :=
  langs.flatMap (indexTasksFor cfg timeline)

/-! ### Declared targets of the path-derived task categories
(`render_tags`, `render_indexes`, `render_rss`, `render_archive`) -/

/-- The `path(...)` selectors whose joined output names become the declared
targets of the tag, paginated-index, RSS and archive task categories of one
build (nikola.py 557, 609, 639, 672, 698, 724, 756): per tag one HTML page
and one feed, the all-tags page, one page per index chunk, the feed, one
page per year and the all-years page. -/
def buildSelectors (tags years : List String) (numPages : Nat) : List PathKind :=
  tags.flatMap (fun t => [PathKind.tag t, PathKind.tagRss t]) ++
  [PathKind.tagIndex] ++
  (List.range numPages).map PathKind.index ++
  [PathKind.rss] ++
  years.map (fun y => PathKind.archive (some y)) ++
  [PathKind.archive none]

/-- All declared target paths of those categories:
`os.path.join(output_folder, self.path(kind, name, lang))` for every
selector and configured language. -/
def buildTargets (cfg : SiteConfig) (langs tags years : List String)
    (numPages : Nat) : List String :=
  langs.flatMap (fun lang =>
    (buildSelectors tags years numPages).map
      (fun k => osPathJoin2 cfg.OUTPUT_FOLDER (nikolaPath cfg k lang)))

/-! ### Decimal rendering of page numbers is injective -/

/-- Decoding a decimal digit character recovers the digit. -/
theorem decDigitVal_digitChar (d : Nat) (h : d < 10) :
    (Nat.digitChar d).toNat - 48 = d := by
  interval_cases d <;> decide

/-- `Nat.toDigitsCore` in base 10 renders exactly the reversed digit list. -/
theorem toDigitsCore_eq10 (fuel : Nat) : ∀ (n : Nat) (acc : List Char),
    0 < n → n < fuel →
    Nat.toDigitsCore 10 fuel n acc =
      ((Nat.digits 10 n).map Nat.digitChar).reverse ++ acc := by
  induction fuel with
  | zero => intro n acc h1 h2; omega
  | succ f ih =>
    intro n acc h1 h2
    rw [Nat.toDigitsCore]
    by_cases hz : n / 10 = 0
    · simp only [hz, if_true]
      rw [Nat.digits_def' (by norm_num : (1:Nat) < 10) h1, hz]
      simp
    · simp only [hz, if_false]
      rw [ih (n / 10) _ (Nat.pos_of_ne_zero hz) (by
        have := Nat.div_lt_self h1 (by norm_num : (1:Nat) < 10); omega)]
      rw [Nat.digits_def' (by norm_num : (1:Nat) < 10) h1]
      simp

/-- Mapping digits (< 10) to characters is injective. -/
theorem digitChar_map_inj {l1 l2 : List Nat} (h1 : ∀ d ∈ l1, d < 10)
    (h2 : ∀ d ∈ l2, d < 10)
    (h : l1.map Nat.digitChar = l2.map Nat.digitChar) : l1 = l2 := by
  induction l1 generalizing l2 with
  | nil => cases l2 <;> simp_all
  | cons a l ih =>
    cases l2 with
    | nil => simp_all
    | cons b l2' =>
      simp only [List.map_cons, List.cons.injEq] at h
      have ha : a < 10 := h1 a (by simp)
      have hb : b < 10 := h2 b (by simp)
      have hab : a = b := by
        have h0 := congrArg (fun c => c.toNat - 48) h.1
        simp only at h0
        rw [decDigitVal_digitChar a ha, decDigitVal_digitChar b hb] at h0
        exact h0
      subst hab
      have := ih (fun d hd => h1 d (by simp [hd])) (fun d hd => h2 d (by simp [hd])) h.2
      simp [this]

/-- `Nat.repr` is injective. -/
theorem natRepr_inj {m n : Nat} (h : Nat.repr m = Nat.repr n) : m = n := by
  have hd : Nat.toDigits 10 m = Nat.toDigits 10 n := by
    have := congrArg String.data h
    exact this
  rcases Nat.eq_zero_or_pos m with hm | hm <;> rcases Nat.eq_zero_or_pos n with hn | hn
  · omega
  · exfalso
    subst hm
    rw [show Nat.toDigits 10 0 = ['0'] from rfl] at hd
    unfold Nat.toDigits at hd
    rw [toDigitsCore_eq10 (n+1) n [] hn (by omega)] at hd
    simp at hd
    have h0 : Nat.digits 10 n = [0] := by
      have := congrArg List.reverse hd
      simp at this
      cases hdig : Nat.digits 10 n with
      | nil => rw [hdig] at this; simp at this
      | cons a t =>
        rw [hdig] at this
        cases t with
        | nil =>
          simp at this
          have ha : a < 10 :=
            Nat.digits_lt_base (by norm_num : (1:Nat) < 10) (by rw [hdig]; simp)
          have := congrArg (fun c => c.toNat - 48) this
          simp only at this
          rw [decDigitVal_digitChar a ha] at this
          have h48 : '0'.toNat = 48 := by decide
          have h9 : a = 0 := by omega
          rw [h9]
        | cons b t2 => simp at this
    have := Nat.ofDigits_digits 10 n
    rw [h0] at this
    simp [Nat.ofDigits] at this
    omega
  · exfalso
    subst hn
    rw [show Nat.toDigits 10 0 = ['0'] from rfl] at hd
    unfold Nat.toDigits at hd
    rw [toDigitsCore_eq10 (m+1) m [] hm (by omega)] at hd
    simp at hd
    have h0 : Nat.digits 10 m = [0] := by
      have := congrArg List.reverse hd
      simp at this
      cases hdig : Nat.digits 10 m with
      | nil => rw [hdig] at this; simp at this
      | cons a t =>
        rw [hdig] at this
        cases t with
        | nil =>
          simp at this
          have ha : a < 10 :=
            Nat.digits_lt_base (by norm_num : (1:Nat) < 10) (by rw [hdig]; simp)
          have := congrArg (fun c => c.toNat - 48) this
          simp only at this
          rw [decDigitVal_digitChar a ha] at this
          have h48 : '0'.toNat = 48 := by decide
          have h9 : a = 0 := by omega
          rw [h9]
        | cons b t2 => simp at this
    have := Nat.ofDigits_digits 10 m
    rw [h0] at this
    simp [Nat.ofDigits] at this
    omega
  · unfold Nat.toDigits at hd
    rw [toDigitsCore_eq10 (m+1) m [] hm (by omega),
        toDigitsCore_eq10 (n+1) n [] hn (by omega)] at hd
    simp at hd
    have := digitChar_map_inj
      (fun d hd2 => Nat.digits_lt_base (by norm_num : (1:Nat) < 10) hd2)
      (fun d hd2 => Nat.digits_lt_base (by norm_num : (1:Nat) < 10) hd2) hd
    have h2 := congrArg (Nat.ofDigits 10) this
    rwa [Nat.ofDigits_digits, Nat.ofDigits_digits] at h2

/-- `toString` on `Nat` is injective. -/
theorem natToString_inj {m n : Nat} (h : toString m = toString n) : m = n :=
  natRepr_inj h

/-! ### Joining path components with `/` is injective on clean segments -/

/-- A clean single path component: nonempty and slash-free. -/
def SegOk (s : String) : Prop := s ≠ "" ∧ '/' ∉ s.data

instance (s : String) : Decidable (SegOk s) := by unfold SegOk; infer_instance

/-- Right cancellation for string append. -/
theorem strAppend_cancel_right {a b s : String} (h : a ++ s = b ++ s) : a = b := by
  apply String.ext
  have h2 := congrArg String.data h
  rw [String.data_append, String.data_append] at h2
  exact List.append_cancel_right h2

/-- Left cancellation for string append. -/
theorem strAppend_cancel_left {a s t : String} (h : a ++ s = a ++ t) : s = t := by
  apply String.ext
  have h2 := congrArg String.data h
  rw [String.data_append, String.data_append] at h2
  exact List.append_cancel_left h2

/-- A string ending in `.html` never equals one ending in `.xml`. -/
theorem html_ne_xml (a b : String) : a ++ ".html" ≠ b ++ ".xml" := by
  intro h
  have h2 := congrArg (fun s => s.data.reverse) h
  simp only [String.data_append, List.reverse_append] at h2
  simp at h2

/-- The characters of `x ++ "/" ++ J`. -/
theorem data_slash (x J : String) : (x ++ "/" ++ J).data = x.data ++ '/' :: J.data := by
  rw [String.data_append, String.data_append]
  simp

/-- Splitting a character list at the first slash is unambiguous when the
part before it is slash-free. -/
theorem splitAtSlashChar : ∀ (a b u v : List Char), '/' ∉ a → '/' ∉ b →
    a ++ '/' :: u = b ++ '/' :: v → a = b ∧ u = v := by
  intro a
  induction a with
  | nil =>
    intro b u v _ hb h
    cases b with
    | nil =>
      simp only [List.nil_append, List.cons.injEq] at h
      exact ⟨rfl, h.2⟩
    | cons c b2 =>
      simp only [List.nil_append, List.cons_append, List.cons.injEq] at h
      exact absurd (h.1 ▸ List.mem_cons_self c b2) hb
  | cons c a2 ih =>
    intro b u v ha hb h
    cases b with
    | nil =>
      simp only [List.cons_append, List.nil_append, List.cons.injEq] at h
      exact absurd (h.1 ▸ List.mem_cons_self c a2) ha
    | cons d b2 =>
      simp only [List.cons_append, List.cons.injEq] at h
      have ha2 : '/' ∉ a2 := fun hm => ha (List.mem_cons_of_mem c hm)
      have hb2 : '/' ∉ b2 := fun hm => hb (List.mem_cons_of_mem d hm)
      have := ih b2 u v ha2 hb2 h.2
      exact ⟨by rw [h.1, this.1], this.2⟩

/-- `joinSlash` of a list with a nonempty head is nonempty. -/
theorem joinSlash_ne_empty {x : String} (xs : List String) (hx : x ≠ "") :
    joinSlash (x :: xs) ≠ "" := by
  cases xs with
  | nil => simpa [joinSlash] using hx
  | cons y ys =>
    simp only [joinSlash]
    intro h
    have h2 := congrArg String.data h
    rw [data_slash] at h2
    simp at h2

/-- Joining at least two components always contains a slash. -/
theorem slash_mem_join2 (x y : String) (ys : List String) :
    '/' ∈ (joinSlash (x :: y :: ys)).data := by
  simp only [joinSlash]
  rw [data_slash]
  simp

/-- `joinSlash` is injective on lists of clean segments. -/
theorem joinSlash_inj : ∀ (xs ys : List String), (∀ x ∈ xs, SegOk x) →
    (∀ y ∈ ys, SegOk y) → joinSlash xs = joinSlash ys → xs = ys := by
  intro xs
  induction xs with
  | nil =>
    intro ys _ hys h
    cases ys with
    | nil => rfl
    | cons y t =>
      exact absurd h.symm (joinSlash_ne_empty t (hys y (by simp)).1)
  | cons x xs' ih =>
    intro ys hxs hys h
    cases ys with
    | nil =>
      exact absurd h (joinSlash_ne_empty xs' (hxs x (by simp)).1)
    | cons y ys' =>
      cases xs' with
      | nil =>
        cases ys' with
        | nil => simpa [joinSlash] using h
        | cons z t =>
          exfalso
          simp only [joinSlash] at h
          exact (hxs x (by simp)).2 (h ▸ slash_mem_join2 y z t)
      | cons x2 t1 =>
        cases ys' with
        | nil =>
          exfalso
          simp only [joinSlash] at h
          exact (hys y (by simp)).2 (h ▸ slash_mem_join2 x x2 t1)
        | cons y2 t2 =>
          simp only [joinSlash] at h
          have h2 := congrArg String.data h
          rw [data_slash, data_slash] at h2
          have hx' : '/' ∉ x.data := (hxs x (by simp)).2
          have hy' : '/' ∉ y.data := (hys y (by simp)).2
          have hs := splitAtSlashChar x.data y.data _ _ hx' hy' h2
          have hxy : x = y := String.ext hs.1
          have hj : joinSlash (x2 :: t1) = joinSlash (y2 :: t2) := String.ext hs.2
          have := ih (y2 :: t2) (fun a ha => hxs a (by simp [ha]))
            (fun a ha => hys a (by simp [ha])) hj
          rw [hxy, this]

/-! ### Canonical component form of `Nikola.path` and its injectivity -/

theorem filterTruthy_cons (a : String) (l : List String) :
    filterTruthy (a :: l) = (if a = "" then [] else [a]) ++ filterTruthy l := by
  by_cases h : a = "" <;> simp [filterTruthy, List.filter_cons, h]

/-- Appending a nonempty string yields a nonempty string. -/
theorem strAppend_ne_empty_right (a b : String) (hb : b ≠ "") : a ++ b ≠ "" := by
  intro h
  have h2 := congrArg String.data h
  rw [String.data_append] at h2
  simp at h2
  exact hb (String.ext h2.2)

/-- Slash-freeness is preserved by append. -/
theorem slashfree_append {a b : String} (ha : '/' ∉ a.data) (hb : '/' ∉ b.data) :
    '/' ∉ (a ++ b).data := by
  rw [String.data_append]
  intro h
  rcases List.mem_append.mp h with h2 | h2
  · exact ha h2
  · exact hb h2

/-- Decimal renderings consist of digit characters only: no slash. -/
theorem natRepr_slashfree (n : Nat) : '/' ∉ (toString n).data := by
  show '/' ∉ (Nat.repr n).data
  rcases Nat.eq_zero_or_pos n with h | h
  · subst h; decide
  · have hdata : (Nat.repr n).data = Nat.toDigits 10 n := rfl
    rw [hdata]
    unfold Nat.toDigits
    rw [toDigitsCore_eq10 (n+1) n [] h (by omega)]
    simp only [List.append_nil, List.mem_reverse]
    intro hm
    rcases List.mem_map.mp hm with ⟨d, hd, hdc⟩
    have hd10 : d < 10 := Nat.digits_lt_base (by norm_num) hd
    interval_cases d <;> exact absurd hdc (by decide)

/-- Well-formedness of a configuration for a list of languages: the four
path prefixes used by the non-gallery kinds are clean segments and pairwise
distinct, and every translation prefix is slash-free, identifies its
language, and differs from every path prefix. -/
def GoodConfig (cfg : SiteConfig) (langs : List String) : Prop :=
  SegOk cfg.TAG_PATH ∧ SegOk cfg.INDEX_PATH ∧ SegOk cfg.RSS_PATH ∧
  SegOk cfg.ARCHIVE_PATH ∧
  cfg.TAG_PATH ≠ cfg.INDEX_PATH ∧ cfg.TAG_PATH ≠ cfg.RSS_PATH ∧
  cfg.TAG_PATH ≠ cfg.ARCHIVE_PATH ∧ cfg.INDEX_PATH ≠ cfg.RSS_PATH ∧
  cfg.INDEX_PATH ≠ cfg.ARCHIVE_PATH ∧ cfg.RSS_PATH ≠ cfg.ARCHIVE_PATH ∧
  (∀ l ∈ langs, '/' ∉ (cfg.TRANSLATIONS l).data) ∧
  (∀ l1 ∈ langs, ∀ l2 ∈ langs, cfg.TRANSLATIONS l1 = cfg.TRANSLATIONS l2 → l1 = l2) ∧
  (∀ l ∈ langs, cfg.TRANSLATIONS l ≠ cfg.TAG_PATH ∧
    cfg.TRANSLATIONS l ≠ cfg.INDEX_PATH ∧ cfg.TRANSLATIONS l ≠ cfg.RSS_PATH ∧
    cfg.TRANSLATIONS l ≠ cfg.ARCHIVE_PATH)

instance (cfg : SiteConfig) (langs : List String) : Decidable (GoodConfig cfg langs) := by
  unfold GoodConfig; infer_instance

/-- "name is valid for that kind", for the non-gallery kinds: names are
slash-free path pieces, year names are nonempty, and no tag is named
`index` (that output name belongs to the all-tags page). -/
def KindOk : PathKind → Prop
  | .tagIndex => True
  | .tag n => '/' ∉ n.data ∧ n ≠ "index"
  | .tagRss n => '/' ∉ n.data
  | .index _ => True
  | .rss => True
  | .archive none => True
  | .archive (some y) => y ≠ "" ∧ '/' ∉ y.data
  | .gallery _ => False

instance : (k : PathKind) → Decidable (KindOk k)
  | .tagIndex => by unfold KindOk; infer_instance
  | .tag _ => by unfold KindOk; infer_instance
  | .tagRss _ => by unfold KindOk; infer_instance
  | .index _ => by unfold KindOk; infer_instance
  | .rss => by unfold KindOk; infer_instance
  | .archive none => by unfold KindOk; infer_instance
  | .archive (some _) => by unfold KindOk; infer_instance
  | .gallery _ => by unfold KindOk; infer_instance

/-- The file name of index page `i` (`'index-%s.html' % i` for positive `i`,
the bare `index.html` for page 0). -/
def indexFileName (i : Nat) : String :=
  if i > 0 then "index-" ++ toString i ++ ".html" else "index.html"

/-- The translation prefix of a path, as a (possibly empty) component list. -/
def transPart (cfg : SiteConfig) (lang : String) : List String :=
  if cfg.TRANSLATIONS lang = "" then [] else [cfg.TRANSLATIONS lang]

/-- The kind-specific components following the translation prefix (the
`archive (some "")` corner never arises under `KindOk`, and `gallery` is
excluded there too). -/
def kindTail (cfg : SiteConfig) : PathKind → List String
  | .tagIndex => [cfg.TAG_PATH, "index.html"]
  | .tag n => [cfg.TAG_PATH, n ++ ".html"]
  | .tagRss n => [cfg.TAG_PATH, n ++ ".xml"]
  | .index i => [cfg.INDEX_PATH, indexFileName i]
  | .rss => [cfg.RSS_PATH, "rss.xml"]
  | .archive (some y) => [cfg.ARCHIVE_PATH, y, "index.html"]
  | .archive none => [cfg.ARCHIVE_PATH, "archive.html"]
  | .gallery _ => []

/-- `filter(None, [a, b, c])` with truthy `b`, `c`. -/
theorem filter3 (a b c : String) (hb : b ≠ "") (hc : c ≠ "") :
    filterTruthy [a, b, c] = (if a = "" then [] else [a]) ++ [b, c] := by
  by_cases ha : a = "" <;> simp [filterTruthy, ha, hb, hc]

/-- `filter(None, [a, b, c, d])` with truthy `b`, `c`, `d`. -/
theorem filter4 (a b c d : String) (hb : b ≠ "") (hc : c ≠ "") (hd : d ≠ "") :
    filterTruthy [a, b, c, d] = (if a = "" then [] else [a]) ++ [b, c, d] := by
  by_cases ha : a = "" <;> simp [filterTruthy, ha, hb, hc, hd]

/-- Under a well-formed configuration, the filtered component list of a
non-gallery path is the translation part followed by the kind tail. -/
theorem pathComponents_eq_tail (cfg : SiteConfig) (lang : String) (k : PathKind)
    (hk : KindOk k) (htag : cfg.TAG_PATH ≠ "") (hidx : cfg.INDEX_PATH ≠ "")
    (hrss : cfg.RSS_PATH ≠ "") (harch : cfg.ARCHIVE_PATH ≠ "") :
    pathComponents cfg lang k = transPart cfg lang ++ kindTail cfg k := by
  cases k with
  | tagIndex =>
      simp only [pathComponents, kindTail, transPart]
      exact filter3 _ _ _ htag (by decide)
  | tag n =>
      simp only [pathComponents, kindTail, transPart]
      exact filter3 _ _ _ htag (strAppend_ne_empty_right n ".html" (by decide))
  | tagRss n =>
      simp only [pathComponents, kindTail, transPart]
      exact filter3 _ _ _ htag (strAppend_ne_empty_right n ".xml" (by decide))
  | index i =>
      by_cases hi : i > 0
      · have hne : "index-" ++ toString i ++ ".html" ≠ "" := by
          rw [String.append_assoc]
          exact strAppend_ne_empty_right _ _
            (strAppend_ne_empty_right _ ".html" (by decide))
        simp only [pathComponents, kindTail, transPart, indexFileName, hi, if_true]
        exact filter3 _ _ _ hidx hne
      · simp only [pathComponents, kindTail, transPart, indexFileName, hi, if_false]
        exact filter3 _ _ _ hidx (by decide)
  | rss =>
      simp only [pathComponents, kindTail, transPart]
      exact filter3 _ _ _ hrss (by decide)
  | archive y =>
      cases y with
      | none =>
          simp only [pathComponents, kindTail, transPart, archiveNameTruthy,
            Bool.false_eq_true, if_false]
          exact filter3 _ _ _ harch (by decide)
      | some s =>
          have hs : s ≠ "" := hk.1
          simp only [pathComponents, kindTail, transPart, archiveNameTruthy, hs,
            Option.getD_some]
          rw [if_pos (by simpa using hs)]
          exact filter4 _ _ _ _ harch hs (by decide)
  | gallery n => exact absurd hk (by simp [KindOk])

/-- Index file names are nonempty. -/
theorem indexFileName_ne_empty (i : Nat) : indexFileName i ≠ "" := by
  by_cases hi : i > 0
  · simp only [indexFileName, hi, if_true]
    rw [String.append_assoc]
    exact strAppend_ne_empty_right _ _ (strAppend_ne_empty_right _ ".html" (by decide))
  · simp [indexFileName, hi]

/-- Index file names determine the page number. -/
theorem indexFileName_inj {i j : Nat} (h : indexFileName i = indexFileName j) :
    i = j := by
  by_cases hi : i > 0 <;> by_cases hj : j > 0 <;>
    simp only [indexFileName, hi, hj, if_true, if_false] at h
  · exact natToString_inj (strAppend_cancel_left (strAppend_cancel_right h))
  · exfalso
    have h2 := congrArg String.length h
    rw [String.length_append, String.length_append] at h2
    have : ("index-").length = 6 := by decide
    have : (".html").length = 5 := by decide
    have : ("index.html").length = 10 := by decide
    omega
  · exfalso
    have h2 := congrArg String.length h
    rw [String.length_append, String.length_append] at h2
    have : ("index-").length = 6 := by decide
    have : (".html").length = 5 := by decide
    have : ("index.html").length = 10 := by decide
    omega
  · omega

/-- Distinct valid (non-gallery) kinds have distinct kind tails. -/
theorem kindTail_inj (cfg : SiteConfig) (k1 k2 : PathKind)
    (hk1 : KindOk k1) (hk2 : KindOk k2)
    (h12 : cfg.TAG_PATH ≠ cfg.INDEX_PATH) (h13 : cfg.TAG_PATH ≠ cfg.RSS_PATH)
    (h14 : cfg.TAG_PATH ≠ cfg.ARCHIVE_PATH) (h23 : cfg.INDEX_PATH ≠ cfg.RSS_PATH)
    (h24 : cfg.INDEX_PATH ≠ cfg.ARCHIVE_PATH) (h34 : cfg.RSS_PATH ≠ cfg.ARCHIVE_PATH)
    (h : kindTail cfg k1 = kindTail cfg k2) : k1 = k2 := by
  cases k1 with
  | tagIndex =>
      cases k2 with
      | tagIndex =>
          rfl
      | tag n2 =>
          simp only [kindTail, List.cons.injEq, and_true, true_and] at h
          have h3 := h
          rw [show ("index.html":String) = "index" ++ ".html" from by decide] at h3
          exact absurd (strAppend_cancel_right h3).symm hk2.2
      | tagRss m2 =>
          simp only [kindTail, List.cons.injEq, and_true, true_and] at h
          have h3 := h
          rw [show ("index.html":String) = "index" ++ ".html" from by decide] at h3
          exact absurd h3 (html_ne_xml "index" m2)
      | index i2 =>
          simp only [kindTail, List.cons.injEq, and_true] at h
          exact absurd h.1 h12
      | rss =>
          simp only [kindTail, List.cons.injEq, and_true] at h
          exact absurd h.1 h13
      | archive y2 =>
          cases y2 with
          | none =>
              simp only [kindTail, List.cons.injEq, and_true] at h
              exact absurd h.1 h14
          | some y2 =>
              exfalso; simp only [kindTail] at h; simp at h
      | gallery g2 =>
          simp only [KindOk] at hk2
  | tag n1 =>
      cases k2 with
      | tagIndex =>
          simp only [kindTail, List.cons.injEq, and_true, true_and] at h
          have h3 := h
          rw [show ("index.html":String) = "index" ++ ".html" from by decide] at h3
          exact absurd (strAppend_cancel_right h3) hk1.2
      | tag n2 =>
          simp only [kindTail, List.cons.injEq, and_true] at h
          rw [strAppend_cancel_right h.2]
      | tagRss m2 =>
          simp only [kindTail, List.cons.injEq, and_true] at h
          exact absurd h.2 (html_ne_xml n1 m2)
      | index i2 =>
          simp only [kindTail, List.cons.injEq, and_true] at h
          exact absurd h.1 h12
      | rss =>
          simp only [kindTail, List.cons.injEq, and_true] at h
          exact absurd h.1 h13
      | archive y2 =>
          cases y2 with
          | none =>
              simp only [kindTail, List.cons.injEq, and_true] at h
              exact absurd h.1 h14
          | some y2 =>
              exfalso; simp only [kindTail] at h; simp at h
      | gallery g2 =>
          simp only [KindOk] at hk2
  | tagRss m1 =>
      cases k2 with
      | tagIndex =>
          simp only [kindTail, List.cons.injEq, and_true, true_and] at h
          have h3 := h
          rw [show ("index.html":String) = "index" ++ ".html" from by decide] at h3
          exact absurd h3.symm (html_ne_xml "index" m1)
      | tag n2 =>
          simp only [kindTail, List.cons.injEq, and_true] at h
          exact absurd h.2.symm (html_ne_xml n2 m1)
      | tagRss m2 =>
          simp only [kindTail, List.cons.injEq, and_true] at h
          rw [strAppend_cancel_right h.2]
      | index i2 =>
          simp only [kindTail, List.cons.injEq, and_true] at h
          exact absurd h.1 h12
      | rss =>
          simp only [kindTail, List.cons.injEq, and_true] at h
          exact absurd h.1 h13
      | archive y2 =>
          cases y2 with
          | none =>
              simp only [kindTail, List.cons.injEq, and_true] at h
              exact absurd h.1 h14
          | some y2 =>
              exfalso; simp only [kindTail] at h; simp at h
      | gallery g2 =>
          simp only [KindOk] at hk2
  | index i1 =>
      cases k2 with
      | tagIndex =>
          simp only [kindTail, List.cons.injEq, and_true] at h
          exact absurd h.1.symm h12
      | tag n2 =>
          simp only [kindTail, List.cons.injEq, and_true] at h
          exact absurd h.1.symm h12
      | tagRss m2 =>
          simp only [kindTail, List.cons.injEq, and_true] at h
          exact absurd h.1.symm h12
      | index i2 =>
          simp only [kindTail, List.cons.injEq, and_true] at h
          rw [indexFileName_inj h.2]
      | rss =>
          simp only [kindTail, List.cons.injEq, and_true] at h
          exact absurd h.1 h23
      | archive y2 =>
          cases y2 with
          | none =>
              simp only [kindTail, List.cons.injEq, and_true] at h
              exact absurd h.1 h24
          | some y2 =>
              exfalso; simp only [kindTail] at h; simp at h
      | gallery g2 =>
          simp only [KindOk] at hk2
  | rss =>
      cases k2 with
      | tagIndex =>
          simp only [kindTail, List.cons.injEq, and_true] at h
          exact absurd h.1.symm h13
      | tag n2 =>
          simp only [kindTail, List.cons.injEq, and_true] at h
          exact absurd h.1.symm h13
      | tagRss m2 =>
          simp only [kindTail, List.cons.injEq, and_true] at h
          exact absurd h.1.symm h13
      | index i2 =>
          simp only [kindTail, List.cons.injEq, and_true] at h
          exact absurd h.1.symm h23
      | rss =>
          rfl
      | archive y2 =>
          cases y2 with
          | none =>
              simp only [kindTail, List.cons.injEq, and_true] at h
              exact absurd h.1 h34
          | some y2 =>
              exfalso; simp only [kindTail] at h; simp at h
      | gallery g2 =>
          simp only [KindOk] at hk2
  | archive y1 =>
      cases y1 with
      | none =>
          cases k2 with
          | tagIndex =>
              simp only [kindTail, List.cons.injEq, and_true] at h
              exact absurd h.1.symm h14
          | tag n2 =>
              simp only [kindTail, List.cons.injEq, and_true] at h
              exact absurd h.1.symm h14
          | tagRss m2 =>
              simp only [kindTail, List.cons.injEq, and_true] at h
              exact absurd h.1.symm h14
          | index i2 =>
              simp only [kindTail, List.cons.injEq, and_true] at h
              exact absurd h.1.symm h24
          | rss =>
              simp only [kindTail, List.cons.injEq, and_true] at h
              exact absurd h.1.symm h34
          | archive y2 =>
              cases y2 with
              | none =>
                  rfl
              | some y2 =>
                  exfalso; simp only [kindTail] at h; simp at h
          | gallery g2 =>
              simp only [KindOk] at hk2
      | some y1 =>
          cases k2 with
          | tagIndex =>
              exfalso; simp only [kindTail] at h; simp at h
          | tag n2 =>
              exfalso; simp only [kindTail] at h; simp at h
          | tagRss m2 =>
              exfalso; simp only [kindTail] at h; simp at h
          | index i2 =>
              exfalso; simp only [kindTail] at h; simp at h
          | rss =>
              exfalso; simp only [kindTail] at h; simp at h
          | archive y2 =>
              cases y2 with
              | none =>
                  exfalso; simp only [kindTail] at h; simp at h
              | some y2 =>
                  have h2 : y1 = y2 := by simpa [kindTail] using h
                  rw [h2]
          | gallery g2 =>
              simp only [KindOk] at hk2
  | gallery g1 =>
      cases k2 with
      | tagIndex =>
          simp only [KindOk] at hk1
      | tag n2 =>
          simp only [KindOk] at hk1
      | tagRss m2 =>
          simp only [KindOk] at hk1
      | index i2 =>
          simp only [KindOk] at hk1
      | rss =>
          simp only [KindOk] at hk1
      | archive y2 =>
          cases y2 with
          | none =>
              simp only [KindOk] at hk1
          | some y2 =>
              simp only [KindOk] at hk1
      | gallery g2 =>
          simp only [KindOk] at hk1

/-- `indexFileName` is a clean path segment. -/
theorem segOk_indexFileName (i : Nat) : SegOk (indexFileName i) := by
  refine ⟨indexFileName_ne_empty i, ?_⟩
  by_cases hi : i > 0 <;> simp only [indexFileName, hi, if_true, if_false]
  · exact slashfree_append (slashfree_append (by decide) (natRepr_slashfree i))
      (by decide)
  · decide

/-- Every component of a valid kind tail is a clean segment. -/
theorem kindTail_segOk (cfg : SiteConfig) (k : PathKind) (hk : KindOk k)
    (htagS : SegOk cfg.TAG_PATH) (hidxS : SegOk cfg.INDEX_PATH)
    (hrssS : SegOk cfg.RSS_PATH) (harchS : SegOk cfg.ARCHIVE_PATH) :
    ∀ c ∈ kindTail cfg k, SegOk c := by
  cases k with
  | tagIndex =>
      intro c hc
      simp only [kindTail, List.mem_cons, List.not_mem_nil, or_false] at hc
      rcases hc with rfl | rfl
      · exact htagS
      · decide
  | tag n =>
      intro c hc
      simp only [kindTail, List.mem_cons, List.not_mem_nil, or_false] at hc
      rcases hc with rfl | rfl
      · exact htagS
      · exact ⟨strAppend_ne_empty_right n ".html" (by decide),
          slashfree_append hk.1 (by decide)⟩
  | tagRss n =>
      intro c hc
      simp only [kindTail, List.mem_cons, List.not_mem_nil, or_false] at hc
      rcases hc with rfl | rfl
      · exact htagS
      · exact ⟨strAppend_ne_empty_right n ".xml" (by decide),
          slashfree_append hk (by decide)⟩
  | index i =>
      intro c hc
      simp only [kindTail, List.mem_cons, List.not_mem_nil, or_false] at hc
      rcases hc with rfl | rfl
      · exact hidxS
      · exact segOk_indexFileName i
  | rss =>
      intro c hc
      simp only [kindTail, List.mem_cons, List.not_mem_nil, or_false] at hc
      rcases hc with rfl | rfl
      · exact hrssS
      · decide
  | archive y =>
      cases y with
      | none =>
          intro c hc
          simp only [kindTail, List.mem_cons, List.not_mem_nil, or_false] at hc
          rcases hc with rfl | rfl
          · exact harchS
          · decide
      | some s =>
          intro c hc
          simp only [kindTail, List.mem_cons, List.not_mem_nil, or_false] at hc
          rcases hc with rfl | rfl | rfl
          · exact harchS
          · exact ⟨hk.1, hk.2⟩
          · decide
  | gallery g => exact absurd hk (by simp [KindOk])

/-- Every valid kind tail starts with one of the four configured prefixes. -/
theorem kindTail_shape (cfg : SiteConfig) (k : PathKind) (hk : KindOk k) :
    ∃ p r, kindTail cfg k = p :: r ∧
      (p = cfg.TAG_PATH ∨ p = cfg.INDEX_PATH ∨ p = cfg.RSS_PATH ∨
       p = cfg.ARCHIVE_PATH) := by
  cases k with
  | tagIndex => exact ⟨_, _, rfl, Or.inl rfl⟩
  | tag n => exact ⟨_, _, rfl, Or.inl rfl⟩
  | tagRss n => exact ⟨_, _, rfl, Or.inl rfl⟩
  | index i => exact ⟨_, _, rfl, Or.inr (Or.inl rfl)⟩
  | rss => exact ⟨_, _, rfl, Or.inr (Or.inr (Or.inl rfl))⟩
  | archive y =>
      cases y with
      | none => exact ⟨_, _, rfl, Or.inr (Or.inr (Or.inr rfl))⟩
      | some s => exact ⟨_, _, rfl, Or.inr (Or.inr (Or.inr rfl))⟩
  | gallery g => exact absurd hk (by simp [KindOk])

/-- Peeling the optional translation prefix off an equality of component
lists, when neither translation equals the other side's leading prefix. -/
theorem transPart_append_inj (t1 t2 p1 p2 : String) (r1 r2 : List String)
    (h1 : t2 ≠ p1) (h2 : t1 ≠ p2)
    (h : (if t1 = "" then [] else [t1]) ++ p1 :: r1 =
         (if t2 = "" then [] else [t2]) ++ p2 :: r2) :
    t1 = t2 ∧ p1 :: r1 = p2 :: r2 := by
  by_cases e1 : t1 = "" <;> by_cases e2 : t2 = "" <;>
    simp only [e1, e2, if_true, if_false, List.nil_append, List.cons_append,
      List.singleton_append, List.cons.injEq] at h
  · exact ⟨e1.trans e2.symm, by rw [h.1, h.2]⟩
  · exact absurd h.1.symm h1
  · exact absurd h.1 h2
  · exact ⟨h.1, by rw [h.2.1, h.2.2]⟩

/-- Master injectivity of `Nikola.path`: under a well-formed configuration,
valid non-gallery selectors and configured languages are recoverable from
the returned output-relative path. -/
theorem nikolaPath_inj (cfg : SiteConfig) (langs : List String)
    (hg : GoodConfig cfg langs) {l1 l2 : String} (hl1 : l1 ∈ langs)
    (hl2 : l2 ∈ langs) {k1 k2 : PathKind} (hk1 : KindOk k1) (hk2 : KindOk k2)
    (h : nikolaPath cfg k1 l1 = nikolaPath cfg k2 l2) : k1 = k2 ∧ l1 = l2 := by
  obtain ⟨htagS, hidxS, hrssS, harchS, h12, h13, h14, h23, h24, h34,
    htrS, htrInj, htrNe⟩ := hg
  have hc1 := pathComponents_eq_tail cfg l1 k1 hk1 htagS.1 hidxS.1 hrssS.1 harchS.1
  have hc2 := pathComponents_eq_tail cfg l2 k2 hk2 htagS.1 hidxS.1 hrssS.1 harchS.1
  have hall1 : ∀ c ∈ pathComponents cfg l1 k1, SegOk c := by
    intro c hc
    rw [hc1] at hc
    rcases List.mem_append.mp hc with hm | hm
    · unfold transPart at hm
      by_cases e : cfg.TRANSLATIONS l1 = ""
      · simp [e] at hm
      · simp only [e, if_false, List.mem_singleton] at hm
        exact hm ▸ ⟨e, htrS l1 hl1⟩
    · exact kindTail_segOk cfg k1 hk1 htagS hidxS hrssS harchS c hm
  have hall2 : ∀ c ∈ pathComponents cfg l2 k2, SegOk c := by
    intro c hc
    rw [hc2] at hc
    rcases List.mem_append.mp hc with hm | hm
    · unfold transPart at hm
      by_cases e : cfg.TRANSLATIONS l2 = ""
      · simp [e] at hm
      · simp only [e, if_false, List.mem_singleton] at hm
        exact hm ▸ ⟨e, htrS l2 hl2⟩
    · exact kindTail_segOk cfg k2 hk2 htagS hidxS hrssS harchS c hm
  have hcomps : pathComponents cfg l1 k1 = pathComponents cfg l2 k2 :=
    joinSlash_inj _ _ hall1 hall2 h
  rw [hc1, hc2] at hcomps
  obtain ⟨p1, r1, hs1, hp1⟩ := kindTail_shape cfg k1 hk1
  obtain ⟨p2, r2, hs2, hp2⟩ := kindTail_shape cfg k2 hk2
  rw [hs1, hs2] at hcomps
  have hne1 : cfg.TRANSLATIONS l2 ≠ p1 := by
    obtain ⟨a, b, c, d⟩ := htrNe l2 hl2
    rcases hp1 with rfl | rfl | rfl | rfl <;> assumption
  have hne2 : cfg.TRANSLATIONS l1 ≠ p2 := by
    obtain ⟨a, b, c, d⟩ := htrNe l1 hl1
    rcases hp2 with rfl | rfl | rfl | rfl <;> assumption
  have hsplit := transPart_append_inj _ _ _ _ _ _ hne1 hne2
    (by simpa only [transPart] using hcomps)
  have hll : l1 = l2 := htrInj l1 hl1 l2 hl2 hsplit.1
  have hkk : k1 = k2 := by
    apply kindTail_inj cfg k1 k2 hk1 hk2 h12 h13 h14 h23 h24 h34
    rw [hs1, hs2, hsplit.2]
  exact ⟨hkk, hll⟩

/-! ### Pagination arithmetic -/

/-- Unfolding `chunk10` on the empty list. -/
theorem chunk10_nil {α : Type} : chunk10 ([] : List α) = [] := by
  rw [chunk10]

/-- Unfolding `chunk10` on a nonempty list. -/
theorem chunk10_cons {α : Type} (x : α) (xs : List α) :
    chunk10 (x :: xs) = (x :: xs).take 10 :: chunk10 ((x :: xs).drop 10) := by
  rw [chunk10]

/-- `chunk10` of the empty list only. -/
theorem chunk10_eq_nil_iff {α : Type} (l : List α) : chunk10 l = [] ↔ l = [] := by
  cases l with
  | nil => simp [chunk10_nil]
  | cons x xs => rw [chunk10_cons]; simp

/-- The chunks concatenate back to the original list. -/
theorem chunk10_flatten {α : Type} (l : List α) : (chunk10 l).flatten = l := by
  induction l using chunk10.induct with
  | case1 => simp [chunk10_nil]
  | case2 x xs ih =>
      rw [chunk10_cons]
      simp only [List.flatten_cons, ih, List.take_append_drop]

/-- There are `ceil(n/10)` chunks. -/
theorem chunk10_length {α : Type} (l : List α) :
    (chunk10 l).length = (l.length + 9) / 10 := by
  induction l using chunk10.induct with
  | case1 => simp [chunk10_nil]
  | case2 x xs ih =>
      rw [chunk10_cons]
      simp only [List.length_cons, ih, List.length_drop, List.length_cons]
      omega

/-- Every chunk is nonempty and holds at most 10 posts. -/
theorem chunk10_mem {α : Type} (l : List α) :
    ∀ c ∈ chunk10 l, c ≠ [] ∧ c.length ≤ 10 := by
  induction l using chunk10.induct with
  | case1 => simp [chunk10_nil]
  | case2 x xs ih =>
      rw [chunk10_cons]
      intro c hc
      rcases List.mem_cons.mp hc with rfl | hm
      · constructor
        · simp
        · simp only [List.length_take]
          omega
      · exact ih c hm

/-- Every chunk except the last holds exactly 10 posts. -/
theorem chunk10_full {α : Type} (l : List α) : ∀ (i : Nat),
    i + 1 < (chunk10 l).length →
    ∀ c, (chunk10 l)[i]? = some c → c.length = 10 := by
  induction l using chunk10.induct with
  | case1 => intro i h; simp [chunk10_nil] at h
  | case2 x xs ih =>
      intro i h c hc
      rw [chunk10_cons] at h hc
      cases i with
      | zero =>
          simp only [List.getElem?_cons_zero, Option.some.injEq] at hc
          simp only [List.length_cons] at h
          have hne : chunk10 ((x :: xs).drop 10) ≠ [] := by
            intro he
            rw [he] at h
            simp at h
          have hd : (x :: xs).drop 10 ≠ [] := by
            intro he
            exact hne ((chunk10_eq_nil_iff _).mpr he)
          have hlen : 10 < (x :: xs).length := by
            by_contra hle
            exact hd (List.drop_eq_nil_of_le (by omega))
          rw [← hc]
          simp only [List.length_take]
          omega
      | succ j =>
          simp only [List.getElem?_cons_succ] at hc
          simp only [List.length_cons] at h
          exact ih j (by omega) c hc

/-- A `flatMap` whose pieces all have length `n`. -/
theorem flatMap_const_length {α β : Type} (xs : List α) (f : α → List β) (n : Nat)
    (h : ∀ x ∈ xs, (f x).length = n) : (xs.flatMap f).length = xs.length * n := by
  induction xs with
  | nil => simp
  | cons x rest ih =>
      simp only [List.flatMap_cons, List.length_append, List.length_cons,
        h x (by simp), ih (fun y hy => h y (by simp [hy]))]
      ring

/-- The C1 pagination contract for one configuration, language list and
timeline: the feed-eligible posts split into `ceil(n/10)` chunks (all full
but the last), one task per page and language, with the
`prevlink`/`nextlink`/output-name context of `gen_task_render_indexes`. -/
def PaginationClaim (cfg : SiteConfig) (langs : List String)
    (timeline : List PostModel) : Prop :=
  (chunk10 (feedPosts timeline)).flatten = feedPosts timeline ∧
  (chunk10 (feedPosts timeline)).length = ((feedPosts timeline).length + 9) / 10 ∧
  (∀ c ∈ chunk10 (feedPosts timeline), c ≠ [] ∧ c.length ≤ 10) ∧
  (∀ i, i + 1 < (chunk10 (feedPosts timeline)).length →
    ∀ c, (chunk10 (feedPosts timeline))[i]? = some c → c.length = 10) ∧
  (genTaskRenderIndexes cfg langs timeline).length =
    langs.length * (chunk10 (feedPosts timeline)).length ∧
  (∀ lang, (indexTasksFor cfg timeline lang).length =
    (chunk10 (feedPosts timeline)).length) ∧
  (∀ lang i t, (indexTasksFor cfg timeline lang)[i]? = some t →
    t.lang = lang ∧ t.page = i ∧
    (∀ c, (chunk10 (feedPosts timeline))[i]? = some c → t.posts = c) ∧
    (i = 0 → t.prevlink = none ∧
      t.output_name = osPathJoin2 cfg.OUTPUT_FOLDER
        (joinSlash (filterTruthy
          [cfg.TRANSLATIONS lang, cfg.INDEX_PATH, "index.html"]))) ∧
    (i = 1 → t.prevlink = some "index.html") ∧
    (i > 1 → t.prevlink = some ("index-" ++ toString (i - 1) ++ ".html")) ∧
    (i = (chunk10 (feedPosts timeline)).length - 1 → t.nextlink = none) ∧
    (i < (chunk10 (feedPosts timeline)).length - 1 →
      t.nextlink = some ("index-" ++ toString (i + 1) ++ ".html"))) ∧
  ((feedPosts timeline).length = 25 → (chunk10 (feedPosts timeline)).length = 3)

/-- Characterization of the `i`-th per-language index task. -/
theorem indexTasksFor_getElem (cfg : SiteConfig) (timeline : List PostModel)
    (lang : String) (i : Nat) (t : IndexTask)
    (ht : (indexTasksFor cfg timeline lang)[i]? = some t) :
    ∃ c, (chunk10 (feedPosts timeline))[i]? = some c ∧
      t = mkIndexTask cfg (chunk10 (feedPosts timeline)).length lang i c := by
  unfold indexTasksFor at ht
  rw [List.getElem?_map] at ht
  cases hc : (chunk10 (feedPosts timeline))[i]? with
  | none =>
      rw [List.getElem?_enum, hc] at ht
      exact absurd ht (by simp)
  | some c =>
      rw [List.getElem?_enum, hc] at ht
      simp only [Option.map_some', Option.some.injEq] at ht
      exact ⟨c, rfl, ht.symm⟩

/-- C1: `gen_task_render_indexes` partitions the feed-eligible timeline into
`ceil(n/10)` pages of size 10 (all but the last full), and emits one task
per page and language with the prevlink/nextlink/output-name context the
claim describes; 25 feed-eligible posts give exactly 3 pages. -/
theorem gen_task_render_indexes_pagination (cfg : SiteConfig)
    (langs : List String) (timeline : List PostModel) :
    PaginationClaim cfg langs timeline := by
  unfold PaginationClaim
  refine ⟨chunk10_flatten _, chunk10_length _, chunk10_mem _, chunk10_full _,
    ?_, ?_, ?_, ?_⟩
  · unfold genTaskRenderIndexes
    apply flatMap_const_length
    intro lang _
    unfold indexTasksFor
    simp
  · intro lang
    unfold indexTasksFor
    simp
  · intro lang i t ht
    obtain ⟨c, hc, rfl⟩ := indexTasksFor_getElem cfg timeline lang i t ht
    refine ⟨rfl, rfl, ?_, ?_, ?_, ?_, ?_, ?_⟩
    · intro c2 hc2
      rw [hc] at hc2
      simp only [Option.some.injEq] at hc2
      simp [mkIndexTask, hc2]
    · intro hi
      subst hi
      constructor
      · simp [mkIndexTask]
      · simp [mkIndexTask, nikolaPath, pathComponents]
    · intro hi
      subst hi
      simp [mkIndexTask]
    · intro hi
      have h1 : ¬ i = 1 := by omega
      simp [mkIndexTask, hi, h1]
    · intro hi
      have h2 : ¬ i < (chunk10 (feedPosts timeline)).length - 1 := by omega
      simp [mkIndexTask, h2]
    · intro hi
      simp [mkIndexTask, hi]
  · intro h25
    rw [chunk10_length, h25]

/-! ### Concrete inputs used by witnesses and counterexamples -/

/-- A small concrete site configuration. -/
def cfgW : SiteConfig :=
  { TRANSLATIONS := fun l => if l = "es" then "es" else ""
    TAG_PATH := "tags"
    INDEX_PATH := "idx"
    RSS_PATH := "rssdir"
    ARCHIVE_PATH := "arch"
    GALLERY_PATH := "galleries"
    OUTPUT_FOLDER := "output" }

/-- A concrete feed-eligible post, dated by `k`. -/
def postW (k : Nat) : PostModel :=
  { source_path := "posts/p.txt"
    post_name := "posts/p"
    base_path := "posts/p.html"
    metadata_path := "posts/p.meta"
    folder := ""
    use_in_feeds := true
    date := ⟨2020, k⟩
    tags := []
    link := ""
    titles := [("en", "T")]
    pagenames := [("en", "p")] }

/-- A timeline of 25 feed-eligible posts. -/
def posts25 : List PostModel := (List.range 25).map postW

/-- C1 witness: the pagination contract at a concrete configuration, the
language list `["en"]` and a concrete timeline of 25 feed-eligible posts. -/
theorem gen_task_render_indexes_pagination_witness :
    PaginationClaim cfgW ["en"] posts25 :=
  gen_task_render_indexes_pagination cfgW ["en"] posts25

/-! ### Claims C2 and C3: the staleness fingerprint -/

/-- Strict key order on dictionary entries. -/
def keyLt (a b : Int × String) : Prop := a.1 < b.1

instance : IsAntisymm (Int × String) keyLt :=
  ⟨fun _ _ h1 h2 => absurd (lt_trans h1 h2) (lt_irrefl _)⟩

/-- C2 counterexample: the same key-value pairs inserted in the two orders
(int keys 0 and 8 collide in an 8-slot CPython-2 dictionary, so its
iteration order genuinely follows insertion history) form semantically
equal mappings whose digests differ. -/
theorem config_changed_digest_order_counterexample :
    ([((0 : Int), "x"), (8, "y")] : List (Int × String)).Perm
      [(8, "y"), (0, "x")] ∧
    configDigest (.dict [(0, "x"), (8, "y")]) ≠
      configDigest (.dict [(8, "y"), (0, "x")]) := by
  constructor
  · exact List.Perm.swap _ _ _
  · decide

/-- C2 amended: the fingerprint is deterministic — re-fingerprinting an
unchanged mapping recomputes the same digest and reports up-to-date — and
two semantically equal mappings receive the same digest whenever they
enumerate their entries in the same canonical (strictly key-sorted) order;
order-independence for arbitrary iteration orders does not hold. -/
theorem config_changed_fingerprint_amended :
    (∀ es : List (Int × String), ∃ r : UptodateResult,
      configChangedCall (.dict es) none = .ok r ∧ r.uptodate = false ∧
      configChangedCall (.dict es) (some r.digest) = .ok ⟨r.digest, true⟩) ∧
    (∀ l1 l2 : List (Int × String), l1.Pairwise keyLt → l2.Pairwise keyLt →
      l1.Perm l2 → configDigest (.dict l1) = configDigest (.dict l2)) := by
  constructor
  · intro es
    refine ⟨⟨md5hex (cPickleDumps (.dict es)), false⟩, rfl, rfl, ?_⟩
    simp [configChangedCall, configDigest]
  · intro l1 l2 h1 h2 hp
    rw [List.eq_of_perm_of_sorted hp h1 h2]

/-- C3: the staleness check is fully characterized — a string context is the
digest verbatim, a mapping is pickled and hashed, any other type raises,
a missing prior digest means stale, and otherwise up-to-date holds exactly
when the persisted digest equals the recomputed one. -/
theorem config_changed_characterization :
    (∀ s : String, configDigest (.str s) = some s) ∧
    (∀ es : List (Int × String),
      configDigest (.dict es) = some (md5hex (cPickleDumps (.dict es)))) ∧
    (∀ (n : Int) (v : Option String), configChangedCall (.int n) v =
      .error ("Invalid type of config_changed parameter got <type 'int'>" ++
        ", must be string or dict")) ∧
    (∀ (xs : List Int) (v : Option String), configChangedCall (.pylist xs) v =
      .error ("Invalid type of config_changed parameter got <type 'list'>" ++
        ", must be string or dict")) ∧
    (∀ cfg d, configDigest cfg = some d →
      configChangedCall cfg none = .ok ⟨d, false⟩ ∧
      ∀ prev, ∃ r, configChangedCall cfg (some prev) = .ok r ∧
        r.digest = d ∧ (r.uptodate = true ↔ prev = d)) := by
  refine ⟨fun s => rfl, fun es => rfl, fun n v => ?_, fun xs v => ?_, ?_⟩
  · simp [configChangedCall, configDigest, pyTypeName]
  · simp [configChangedCall, configDigest, pyTypeName]
  · intro cfg d hd
    constructor
    · simp [configChangedCall, hd]
    · intro prev
      refine ⟨⟨d, decide (prev = d)⟩, ?_, rfl, ?_⟩
      · simp [configChangedCall, hd]
      · simp

/-! ### Claim C4: injectivity of the path resolver -/

/-- C4 counterexample: a tag named `index` is a valid tag name, yet its page
path coincides with the all-tags index page — two distinct (kind, name,
lang) triples with the same output path. -/
theorem path_injective_counterexample :
    PathKind.tag "index" ≠ PathKind.tagIndex ∧
    nikolaPath cfgW (PathKind.tag "index") "en" =
      nikolaPath cfgW PathKind.tagIndex "en" := by
  constructor
  · decide
  · decide

/-- C4 amended: `path` is deterministic (it is a function), and on the
non-gallery kinds it is injective once the configuration is well-formed and
names are valid with the reserved tag name `index` excluded; `gallery`
ignores the language argument and is excluded. -/
theorem path_injective_amended (cfg : SiteConfig) (langs : List String)
    (hg : GoodConfig cfg langs) {l1 l2 : String} (hl1 : l1 ∈ langs)
    (hl2 : l2 ∈ langs) {k1 k2 : PathKind} (hk1 : KindOk k1) (hk2 : KindOk k2)
    (h : nikolaPath cfg k1 l1 = nikolaPath cfg k2 l2) : k1 = k2 ∧ l1 = l2 :=
  nikolaPath_inj cfg langs hg hl1 hl2 hk1 hk2 h

/-- C4 witness: the amended statement applied at a concrete well-formed
configuration and concrete valid selectors. -/
theorem path_injective_amended_witness :
    PathKind.tag "a" = PathKind.tag "a" ∧ "en" = "en" :=
  path_injective_amended cfgW ["en", "es"] (by decide) (by decide) (by decide)
    (by decide) (by decide) rfl

/-! ### Claim C9: disjointness of declared targets -/

/-- A `flatMap` of maps over two duplicate-free lists with a jointly
injective function is duplicate-free. -/
theorem flatMap_map_nodup {α β γ : Type} (xs : List α) (ys : List β)
    (f : α → β → γ) (hx : xs.Nodup) (hy : ys.Nodup)
    (hinj : ∀ x1 ∈ xs, ∀ x2 ∈ xs, ∀ y1 ∈ ys, ∀ y2 ∈ ys,
      f x1 y1 = f x2 y2 → x1 = x2 ∧ y1 = y2) :
    (xs.flatMap (fun x => ys.map (f x))).Nodup := by
  induction xs with
  | nil => simp
  | cons x rest ih =>
      rw [List.flatMap_cons]
      rcases List.nodup_cons.mp hx with ⟨hxr, hrest⟩
      apply List.Nodup.append
      · apply List.Nodup.map_on ?_ hy
        intro y1 hy1 y2 hy2 he
        exact (hinj x (by simp) x (by simp) y1 hy1 y2 hy2 he).2
      · exact ih hrest (fun x1 h1 x2 h2 => hinj x1 (by simp [h1]) x2 (by simp [h2]))
      · intro a ha hb
        rcases List.mem_map.mp ha with ⟨y1, hy1, rfl⟩
        rcases List.mem_flatMap.mp hb with ⟨x2, hx2, hmem⟩
        rcases List.mem_map.mp hmem with ⟨y2, hy2, he⟩
        have := hinj x (by simp) x2 (by simp [hx2]) y1 hy1 y2 hy2 he.symm
        exact hxr (this.1 ▸ hx2)

/-- Every selector of the modelled categories is valid when tags avoid the
reserved name `index` and year names are clean. -/
theorem buildSelectors_kindOk (tags years : List String) (numPages : Nat)
    (htags : ∀ t ∈ tags, '/' ∉ t.data ∧ t ≠ "index")
    (hyears : ∀ y ∈ years, y ≠ "" ∧ '/' ∉ y.data) :
    ∀ k ∈ buildSelectors tags years numPages, KindOk k := by
  intro k hk
  unfold buildSelectors at hk
  simp only [List.mem_append, or_assoc] at hk
  rcases hk with h | h | h | h | h | h
  · rcases List.mem_flatMap.mp h with ⟨t, ht, hm⟩
    rcases List.mem_cons.mp hm with rfl | hm2
    · exact ⟨(htags t ht).1, (htags t ht).2⟩
    · rw [List.mem_singleton.mp hm2]
      exact (htags t ht).1
  · rw [List.mem_singleton.mp h]
    trivial
  · rcases List.mem_map.mp h with ⟨i, _, rfl⟩
    trivial
  · rw [List.mem_singleton.mp h]
    trivial
  · rcases List.mem_map.mp h with ⟨y, hy, rfl⟩
    exact ⟨(hyears y hy).1, (hyears y hy).2⟩
  · rw [List.mem_singleton.mp h]
    trivial

/-- The per-tag selector block is duplicate-free for duplicate-free tags. -/
theorem tagSels_nodup (tags : List String) (h : tags.Nodup) :
    (tags.flatMap (fun t => [PathKind.tag t, PathKind.tagRss t])).Nodup := by
  induction tags with
  | nil => simp
  | cons t rest ih =>
      rw [List.flatMap_cons]
      rcases List.nodup_cons.mp h with ⟨htr, hrest⟩
      apply List.Nodup.append
      · simp
      · exact ih hrest
      · intro a ha hb
        rcases List.mem_flatMap.mp hb with ⟨u, hu, hmem⟩
        have hau : a = PathKind.tag u ∨ a = PathKind.tagRss u := by
          rcases List.mem_cons.mp hmem with he | hmem2
          · exact Or.inl he
          · exact Or.inr (List.mem_singleton.mp hmem2)
        have hat : a = PathKind.tag t ∨ a = PathKind.tagRss t := by
          rcases List.mem_cons.mp ha with he | hmem2
          · exact Or.inl he
          · exact Or.inr (List.mem_singleton.mp hmem2)
        rcases hat with rfl | rfl <;> rcases hau with he | he
        · injection he with h2
          exact htr (h2 ▸ hu)
        · exact PathKind.noConfusion he
        · exact PathKind.noConfusion he
        · injection he with h2
          exact htr (h2 ▸ hu)

/-- The modelled selector list of one build is duplicate-free. -/
theorem buildSelectors_nodup (tags years : List String) (numPages : Nat)
    (htags : tags.Nodup) (hyears : years.Nodup) :
    (buildSelectors tags years numPages).Nodup := by
  unfold buildSelectors
  simp only [List.nodup_append, List.disjoint_left]
  refine ⟨⟨⟨⟨⟨tagSels_nodup tags htags, by simp, ?_⟩,
    List.Nodup.map (fun a b hab => by injection hab) (List.nodup_range numPages), ?_⟩,
    by simp, ?_⟩,
    List.Nodup.map (fun a b hab => by
      injection hab with h2
      injection h2) hyears, ?_⟩,
    by simp, ?_⟩
  · intro a ha hb
    rw [List.mem_singleton] at hb
    subst hb
    simp [List.mem_flatMap] at ha
  · intro a ha hb
    rcases List.mem_map.mp hb with ⟨i, _, rfl⟩
    simp [List.mem_append, List.mem_flatMap] at ha
  · intro a ha hb
    rw [List.mem_singleton] at hb
    subst hb
    simp [List.mem_append, List.mem_flatMap] at ha
  · intro a ha hb
    rcases List.mem_map.mp hb with ⟨y, _, rfl⟩
    simp [List.mem_append, List.mem_flatMap] at ha
  · intro a ha hb
    rw [List.mem_singleton] at hb
    subst hb
    simp [List.mem_append, List.mem_flatMap] at ha

/-- C9 amended: across the tag, paginated-index, RSS and archive task
categories of one build, all declared targets are pairwise distinct —
provided the configuration is well-formed and the content avoids the
reserved collisions (no tag named `index`, clean tag/year names, no
duplicate languages, tags or years). -/
theorem build_targets_disjoint (cfg : SiteConfig) (langs tags years : List String)
    (numPages : Nat) (hg : GoodConfig cfg langs) (hl : langs.Nodup)
    (htags : tags.Nodup) (hyears : years.Nodup)
    (htagsOk : ∀ t ∈ tags, '/' ∉ t.data ∧ t ≠ "index")
    (hyearsOk : ∀ y ∈ years, y ≠ "" ∧ '/' ∉ y.data) :
    (buildTargets cfg langs tags years numPages).Nodup := by
  unfold buildTargets
  apply flatMap_map_nodup _ _ _ hl (buildSelectors_nodup tags years numPages htags hyears)
  intro l1 hl1 l2 hl2 k1 hk1 k2 hk2 heq
  have hpath : nikolaPath cfg k1 l1 = nikolaPath cfg k2 l2 :=
    strAppend_cancel_left (a := cfg.OUTPUT_FOLDER ++ "/") heq
  have hres := nikolaPath_inj cfg langs hg hl1 hl2
    (buildSelectors_kindOk tags years numPages htagsOk hyearsOk k1 hk1)
    (buildSelectors_kindOk tags years numPages htagsOk hyearsOk k2 hk2) hpath
  exact ⟨hres.2, hres.1⟩

/-- C9 counterexample: a build whose content carries a tag named `index`
declares the same output file (`output/tags/index.html`) as the target of
both the per-tag page task and the all-tags page task. -/
theorem build_targets_collision_counterexample :
    ¬ (buildTargets cfgW ["en"] ["index"] [] 0).Nodup := by decide

/-- C9 witness: the amended statement applied at concrete languages, tags
and years. -/
theorem build_targets_disjoint_witness :
    (buildTargets cfgW ["en", "es"] ["foo", "bar"] ["2020"] 2).Nodup :=
  build_targets_disjoint cfgW ["en", "es"] ["foo", "bar"] ["2020"] 2
    (by decide) (by decide) (by decide) (by decide) (by decide) (by decide)

/-! ### Claim C5: the relative-URL rewriter -/

/-- A reported first mismatch lies inside both element lists. -/
theorem firstMismatch_lt : ∀ (s d : List String) (i : Nat),
    firstMismatch s d = some i → i < s.length ∧ i < d.length := by
  intro s
  induction s with
  | nil => intro d i h; simp [firstMismatch] at h
  | cons a ss ih =>
      intro d i h
      cases d with
      | nil => simp [firstMismatch] at h
      | cons b ds =>
          rw [firstMismatch] at h
          by_cases hab : a = b
          · simp only [hab, ne_eq, not_true_eq_false, if_false] at h
            cases hm : firstMismatch ss ds with
            | none => rw [hm] at h; simp at h
            | some j =>
                rw [hm] at h
                simp only [Option.map_some', Option.some.injEq] at h
                have := ih ds j hm
                simp only [List.length_cons]
                omega
          · simp only [hab, ne_eq, not_false_eq_true, if_true,
              Option.some.injEq] at h
            simp only [List.length_cons]
            omega

/-- Before the first mismatch the two element lists agree. -/
theorem firstMismatch_take : ∀ (s d : List String) (i : Nat),
    firstMismatch s d = some i → s.take i = d.take i := by
  intro s
  induction s with
  | nil => intro d i h; simp [firstMismatch] at h
  | cons a ss ih =>
      intro d i h
      cases d with
      | nil => simp [firstMismatch] at h
      | cons b ds =>
          rw [firstMismatch] at h
          by_cases hab : a = b
          · simp only [hab, ne_eq, not_true_eq_false, if_false] at h
            cases hm : firstMismatch ss ds with
            | none => rw [hm] at h; simp at h
            | some j =>
                rw [hm] at h
                simp only [Option.map_some', Option.some.injEq] at h
                subst h
                simp only [List.take_succ_cons, hab]
                rw [ih ds j hm]
          · simp only [hab, ne_eq, not_false_eq_true, if_true,
              Option.some.injEq] at h
            subst h
            simp

/-- The first mismatch bounds every common-prefix length. -/
theorem firstMismatch_max : ∀ (s d : List String) (i m : Nat),
    firstMismatch s d = some i → s.take m = d.take m → m ≤ i := by
  intro s
  induction s with
  | nil => intro d i m h; simp [firstMismatch] at h
  | cons a ss ih =>
      intro d i m h ht
      cases d with
      | nil => simp [firstMismatch] at h
      | cons b ds =>
          rw [firstMismatch] at h
          by_cases hab : a = b
          · simp only [hab, ne_eq, not_true_eq_false, if_false] at h
            cases hm : firstMismatch ss ds with
            | none => rw [hm] at h; simp at h
            | some j =>
                rw [hm] at h
                simp only [Option.map_some', Option.some.injEq] at h
                subst h
                cases m with
                | zero => omega
                | succ m2 =>
                    simp only [List.take_succ_cons, List.cons.injEq] at ht
                    have := ih ds j m2 hm ht.2
                    omega
          · simp only [hab, ne_eq, not_false_eq_true, if_true,
              Option.some.injEq] at h
            subst h
            cases m with
            | zero => omega
            | succ m2 =>
                simp only [List.take_succ_cons, List.cons.injEq] at ht
                exact absurd ht.1 hab

/-- C5 amended: when the sites differ, `rel_link` returns the destination
verbatim (including the spec's two concrete examples); when scheme and
netloc agree and the two paths diverge before either runs out, `rel_link`
returns the shortest `../`-prefixed relative reference that resolves to the
destination.  When the source path is an element-wise prefix of the
destination (no divergence), the returned reference is wrong — see the
counterexample. -/
theorem rel_link_amended :
    (∀ src dst : SplitUrl,
      (src.scheme, src.netloc) ≠ (dst.scheme, dst.netloc) →
      relLink src dst = dst.render) ∧
    relLink ⟨"http", "x", ["a", "b"]⟩ ⟨"http", "x", ["a", "c"]⟩ = "c" ∧
    relLink ⟨"http", "x", ["a", "b"]⟩ ⟨"http", "y", ["c"]⟩ = "http://y/c" ∧
    (∀ src dst : SplitUrl, src.scheme = dst.scheme → src.netloc = dst.netloc →
      ∀ i, firstMismatch src.pathElems dst.pathElems = some i →
      ∃ k tail,
        relLinkParts src.pathElems dst.pathElems =
          List.replicate k ".." ++ tail ∧
        relLink src dst = joinSlash (List.replicate k ".." ++ tail) ∧
        ResolvesTo src.pathElems dst.pathElems k tail ∧
        ∀ k2 tail2, ResolvesTo src.pathElems dst.pathElems k2 tail2 →
          k + tail.length ≤ k2 + tail2.length) := by
  refine ⟨?_, by decide, by decide, ?_⟩
  · intro src dst hne
    unfold relLink
    rw [if_neg]
    intro hc
    exact hne (by rw [hc.1, hc.2])
  · intro src dst hs hn i hi
    obtain ⟨hilt1, hilt2⟩ := firstMismatch_lt _ _ _ hi
    refine ⟨src.pathElems.length - i - 1, dst.pathElems.drop i, ?_, ?_, ?_, ?_⟩
    · unfold relLinkParts relLinkI
      rw [hi]
    · unfold relLink
      rw [if_pos ⟨hs, hn⟩]
      unfold relLinkParts relLinkI
      rw [hi]
    · refine ⟨by omega, ?_, ?_⟩
      · intro hnil
        rw [List.drop_eq_nil_iff] at hnil
        omega
      · have harith : src.pathElems.length - 1 -
            (src.pathElems.length - i - 1) = i := by omega
        rw [harith, firstMismatch_take _ _ _ hi, List.take_append_drop]
    · intro k2 tail2 hr
      obtain ⟨hk2, htl2, heq2⟩ := hr
      have hm2 : src.pathElems.length - 1 - k2 ≤ src.pathElems.length := by omega
      have hlen : (src.pathElems.take (src.pathElems.length - 1 - k2)).length =
          src.pathElems.length - 1 - k2 := by
        rw [List.length_take]
        omega
      have htake : dst.pathElems.take (src.pathElems.length - 1 - k2) =
          src.pathElems.take (src.pathElems.length - 1 - k2) := by
        have := congrArg (fun l => List.take (src.pathElems.length - 1 - k2) l) heq2
        simp only at this
        rw [List.take_append_of_le_length (by omega)] at this
        rw [← this, List.take_take]
        congr 1
        omega
      have hmax := firstMismatch_max _ _ _ _ hi htake.symm
      have hdrop : tail2 = dst.pathElems.drop (src.pathElems.length - 1 - k2) := by
        have := congrArg (fun l => List.drop (src.pathElems.length - 1 - k2) l) heq2
        simp only at this
        rw [List.drop_append_of_le_length (by omega)] at this
        rw [← this]
        rw [List.drop_eq_nil_of_le (by omega), List.nil_append]
      have hlen2 : tail2.length =
          dst.pathElems.length - (src.pathElems.length - 1 - k2) := by
        rw [hdrop, List.length_drop]
      have hlend : (dst.pathElems.drop i).length = dst.pathElems.length - i :=
        List.length_drop _ _
      omega

/-- C5 counterexample: when the source path is a prefix of the destination
path (`http://x/a/b` → `http://x/a/b/c`), `rel_link` returns `"c"`, which
resolves to `http://x/a/c`, not the destination; the correct shortest
relative reference is `"b/c"`. -/
theorem rel_link_counterexample :
    relLink ⟨"http", "x", ["a", "b"]⟩ ⟨"http", "x", ["a", "b", "c"]⟩ = "c" ∧
    relLinkParts ["a", "b"] ["a", "b", "c"] = ["c"] ∧
    ¬ ResolvesTo ["a", "b"] ["a", "b", "c"] 0 ["c"] ∧
    ResolvesTo ["a", "b"] ["a", "b", "c"] 0 ["b", "c"] ∧
    joinSlash ["b", "c"] ≠ "c" := by decide

/-- C5 witness: the amended statement applied at the spec's own example
(`http://x/a/b` → `http://x/a/c`), whose paths diverge at element 1. -/
theorem rel_link_amended_witness :
    ∃ k tail,
      relLinkParts ["a", "b"] ["a", "c"] = List.replicate k ".." ++ tail ∧
      relLink ⟨"http", "x", ["a", "b"]⟩ ⟨"http", "x", ["a", "c"]⟩ =
        joinSlash (List.replicate k ".." ++ tail) ∧
      ResolvesTo ["a", "b"] ["a", "c"] k tail ∧
      ∀ k2 tail2, ResolvesTo ["a", "b"] ["a", "c"] k2 tail2 →
        k + tail.length ≤ k2 + tail2.length :=
  rel_link_amended.2.2.2 ⟨"http", "x", ["a", "b"]⟩ ⟨"http", "x", ["a", "c"]⟩
    rfl rfl 1 (by decide)

/-! ### Claims C6 and C10: the content entity -/

/-- What `postInit` constructs when the primary metadata is readable and the
date line parses. -/
theorem postInit_eq (dparse : String → Option PyDateTime) (fs : FileSys)
    (sp dest : String) (uif : Bool) (ts : List (String × String)) (dl : String)
    (ml : List String) (dt : PyDateTime)
    (hmeta : fs (splitextRoot sp ++ ".meta") = some ml)
    (hdate : dparse (((padTo5 ml).map pyStrip).getD 2 "") = some dt) :
    postInit dparse fs sp dest uif ts dl = some
      { source_path := sp
        post_name := splitextRoot sp
        base_path := splitextRoot sp ++ ".html"
        metadata_path := splitextRoot sp ++ ".meta"
        folder := dest
        use_in_feeds := uif
        date := dt
        tags := filterTruthy
          ((pySplitComma (((padTo5 ml).map pyStrip).getD 3 "")).map pyStrip)
        link := ((padTo5 ml).map pyStrip).getD 4 ""
        titles := ts.map (fun lt => (lt.1, (overrideVals fs
          (splitextRoot sp ++ ".meta") (((padTo5 ml).map pyStrip).getD 0 "")
          (((padTo5 ml).map pyStrip).getD 1 "") dl lt.1).1))
        pagenames := ts.map (fun lt => (lt.1, (overrideVals fs
          (splitextRoot sp ++ ".meta") (((padTo5 ml).map pyStrip).getD 0 "")
          (((padTo5 ml).map pyStrip).getD 1 "") dl lt.1).2)) } := by
  simp only [postInit, hmeta, hdate]

/-- Looking a language up in the titles map built by `Post.__init__`. -/
theorem lookup_overrideVals_fst (fs : FileSys) (mp dt0 dp0 dl : String) :
    ∀ (ts : List (String × String)) (k : String),
    (ts.map (fun lt => (lt.1, (overrideVals fs mp dt0 dp0 dl lt.1).1))).lookup k =
      if k ∈ ts.map Prod.fst then some ((overrideVals fs mp dt0 dp0 dl k).1)
      else none := by
  intro ts
  induction ts with
  | nil => intro k; simp
  | cons a rest ih =>
      intro k
      by_cases hk : k = a.1
      · subst hk
        simp [List.lookup]
      · simp only [List.map_cons, List.lookup, beq_false_of_ne hk, ih]
        split_ifs with h1 h2 h3
        · rfl
        · exact absurd (List.mem_cons_of_mem _ h1) h2
        · rcases List.mem_cons.mp h3 with he | hm
          · exact absurd he hk
          · exact absurd hm h1
        · rfl

/-- Looking a language up in the pagenames map built by `Post.__init__`. -/
theorem lookup_overrideVals_snd (fs : FileSys) (mp dt0 dp0 dl : String) :
    ∀ (ts : List (String × String)) (k : String),
    (ts.map (fun lt => (lt.1, (overrideVals fs mp dt0 dp0 dl lt.1).2))).lookup k =
      if k ∈ ts.map Prod.fst then some ((overrideVals fs mp dt0 dp0 dl k).2)
      else none := by
  intro ts
  induction ts with
  | nil => intro k; simp
  | cons a rest ih =>
      intro k
      by_cases hk : k = a.1
      · subst hk
        simp [List.lookup]
      · simp only [List.map_cons, List.lookup, beq_false_of_ne hk, ih]
        split_ifs with h1 h2 h3
        · rfl
        · exact absurd (List.mem_cons_of_mem _ h1) h2
        · rcases List.mem_cons.mp h3 with he | hm
          · exact absurd he hk
          · exact absurd hm h1
        · rfl

/-- C6: for a constructible post (readable primary metadata, parsable date)
and any configured non-default language, a missing/unreadable override file
makes both the title and the pagename fall back to the default-language
values, an empty (or missing) override title line makes the title fall
back, and an empty (or missing) override pagename line makes the pagename
fall back — and construction succeeds regardless of the override files. -/
theorem post_translation_fallback (dparse : String → Option PyDateTime)
    (fs : FileSys) (sp dest : String) (uif : Bool)
    (ts : List (String × String)) (dl : String) (ml : List String)
    (dt : PyDateTime) (lang : String)
    (hmeta : fs (splitextRoot sp ++ ".meta") = some ml)
    (hdate : dparse (((padTo5 ml).map pyStrip).getD 2 "") = some dt)
    (hlang : lang ∈ ts.map Prod.fst) (hdl : dl ∈ ts.map Prod.fst)
    (hne : lang ≠ dl) :
    ∃ p, postInit dparse fs sp dest uif ts dl = some p ∧
      (fs (splitextRoot sp ++ ".meta" ++ "." ++ lang) = none →
        p.title lang = p.title dl ∧ p.pagename lang = p.pagename dl) ∧
      (∀ ls, fs (splitextRoot sp ++ ".meta" ++ "." ++ lang) = some ls →
        (padTo2 (ls.map pyStrip)).getD 0 "" = "" →
        p.title lang = p.title dl) ∧
      (∀ ls, fs (splitextRoot sp ++ ".meta" ++ "." ++ lang) = some ls →
        (padTo2 (ls.map pyStrip)).getD 1 "" = "" →
        p.pagename lang = p.pagename dl) := by
  refine ⟨_, postInit_eq dparse fs sp dest uif ts dl ml dt hmeta hdate, ?_, ?_, ?_⟩
  · intro habsent
    constructor
    · show List.lookup lang _ = List.lookup dl _
      rw [lookup_overrideVals_fst, lookup_overrideVals_fst,
        if_pos hlang, if_pos hdl]
      simp only [overrideVals, hne, if_false, habsent, eq_self_iff_true, if_true]
    · show List.lookup lang _ = List.lookup dl _
      rw [lookup_overrideVals_snd, lookup_overrideVals_snd,
        if_pos hlang, if_pos hdl]
      simp only [overrideVals, hne, if_false, habsent, eq_self_iff_true, if_true]
  · intro ls hls hempty
    show List.lookup lang _ = List.lookup dl _
    rw [lookup_overrideVals_fst, lookup_overrideVals_fst,
      if_pos hlang, if_pos hdl]
    simp only [overrideVals, hne, if_false, hls, hempty, pyOr,
      eq_self_iff_true, if_true]
  · intro ls hls hempty
    show List.lookup lang _ = List.lookup dl _
    rw [lookup_overrideVals_snd, lookup_overrideVals_snd,
      if_pos hlang, if_pos hdl]
    simp only [overrideVals, hne, if_false, hls, hempty, pyOr,
      eq_self_iff_true, if_true]

/-- A concrete date parser: recognizes exactly one date string. -/
def dparseW : String → Option PyDateTime := fun s =>
  if s = "2020/01/01 00:00" then some ⟨2020, 0⟩ else none

/-- A concrete file system: a readable three-line primary metadata file and
nothing else (in particular no `.meta.es` override). -/
def fsW : FileSys := fun p =>
  if p = "posts/a.meta" then some ["T", "slug", "2020/01/01 00:00"] else none

/-- C6 witness: the fallback statement applied to a concrete post whose
Spanish override file is absent. -/
theorem post_translation_fallback_witness :
    ∃ p, postInit dparseW fsW "posts/a.txt" "" true [("en", ""), ("es", "es")]
        "en" = some p ∧
      (fsW (splitextRoot "posts/a.txt" ++ ".meta" ++ "." ++ "es") = none →
        p.title "es" = p.title "en" ∧ p.pagename "es" = p.pagename "en") ∧
      (∀ ls, fsW (splitextRoot "posts/a.txt" ++ ".meta" ++ "." ++ "es") = some ls →
        (padTo2 (ls.map pyStrip)).getD 0 "" = "" →
        p.title "es" = p.title "en") ∧
      (∀ ls, fsW (splitextRoot "posts/a.txt" ++ ".meta" ++ "." ++ "es") = some ls →
        (padTo2 (ls.map pyStrip)).getD 1 "" = "" →
        p.pagename "es" = p.pagename "en") :=
  post_translation_fallback dparseW fsW "posts/a.txt" "" true
    [("en", ""), ("es", "es")] "en" ["T", "slug", "2020/01/01 00:00"]
    ⟨2020, 0⟩ "es" (by decide) (by decide) (by decide) (by decide) (by decide)

/-- Indexing a stripped, padded metadata list past its real lines yields the
empty-string default. -/
theorem padTo5_strip_getD (ml : List String) (j : Nat) (hj : ml.length ≤ j)
    (hj5 : j < 5) : ((padTo5 ml).map pyStrip).getD j "" = "" := by
  have h1 : ((padTo5 ml).map pyStrip)[j]? = some "" := by
    rw [List.getElem?_map]
    unfold padTo5
    rw [List.getElem?_append_right hj, List.getElem?_replicate]
    rw [if_pos (by omega)]
    rfl
  simp [List.getD, List.get?_eq_getElem?, h1]

/-- Tags coming out of the comma-split-strip-filter pipeline are never
empty strings. -/
theorem filterTruthy_no_empty (xs : List String) : "" ∉ filterTruthy xs := by
  intro h
  simp [filterTruthy, List.mem_filter] at h

/-- C10: with a readable primary metadata file whose (stripped) third line
parses as a date, construction succeeds even with fewer than five lines;
a missing tags line gives the empty tag list, a missing link line gives the
empty link, and the tag list never contains an empty string. -/
theorem post_meta_defaults (dparse : String → Option PyDateTime)
    (fs : FileSys) (sp dest : String) (uif : Bool)
    (ts : List (String × String)) (dl : String) (ml : List String)
    (dt : PyDateTime)
    (hmeta : fs (splitextRoot sp ++ ".meta") = some ml)
    (hdate : dparse (((padTo5 ml).map pyStrip).getD 2 "") = some dt) :
    ∃ p, postInit dparse fs sp dest uif ts dl = some p ∧
      "" ∉ p.tags ∧ p.date = dt ∧
      (ml.length ≤ 3 → p.tags = []) ∧
      (ml.length ≤ 4 → p.link = "") := by
  refine ⟨_, postInit_eq dparse fs sp dest uif ts dl ml dt hmeta hdate,
    filterTruthy_no_empty _, rfl, ?_, ?_⟩
  · intro h3
    show filterTruthy ((pySplitComma
      (((padTo5 ml).map pyStrip).getD 3 "")).map pyStrip) = []
    rw [padTo5_strip_getD ml 3 h3 (by omega)]
    rfl
  · intro h4
    show ((padTo5 ml).map pyStrip).getD 4 "" = ""
    exact padTo5_strip_getD ml 4 h4 (by omega)

/-- C10 witness: the statement applied to a concrete three-line metadata
file. -/
theorem post_meta_defaults_witness :
    ∃ p, postInit dparseW fsW "posts/a.txt" "" true [("en", ""), ("es", "es")]
        "en" = some p ∧
      "" ∉ p.tags ∧ p.date = ⟨2020, 0⟩ ∧
      (List.length ["T", "slug", "2020/01/01 00:00"] ≤ 3 → p.tags = []) ∧
      (List.length ["T", "slug", "2020/01/01 00:00"] ≤ 4 → p.link = "") :=
  post_meta_defaults dparseW fsW "posts/a.txt" "" true [("en", ""), ("es", "es")]
    "en" ["T", "slug", "2020/01/01 00:00"] ⟨2020, 0⟩ (by decide) (by decide)

/-! ### Claims C7 and C8: the corpus scanner -/

instance : IsTotal PostModel postDateLe :=
  ⟨by intro a b; unfold postDateLe dateLe; omega⟩

instance : IsTrans PostModel postDateLe :=
  ⟨by intro a b c; unfold postDateLe dateLe; omega⟩

/-- Setting a fresh key appends it. -/
theorem dictSet_fresh {α : Type} (d : List (String × α)) (k : String) (v : α)
    (h : d.lookup k = none) : dictSet d k v = d ++ [(k, v)] := by
  unfold dictSet
  rw [h]
  rfl

/-- A key outside the key list is not found. -/
theorem lookup_eq_none {α : Type} : ∀ (d : List (String × α)) (k : String),
    k ∉ d.map Prod.fst → d.lookup k = none := by
  intro d
  induction d with
  | nil => intro k _; rfl
  | cons a rest ih =>
      intro k hk
      have h1 : k ≠ a.1 := fun he => hk (by simp [he])
      have h2 : k ∉ rest.map Prod.fst := fun hm => hk (by simp [hm])
      simp [List.lookup, beq_false_of_ne h1, ih k h2]

/-- Scanning posts with fresh, duplicate-free identifiers appends them to
`global_data` in scan order. -/
theorem scan_global_data : ∀ (found : List PostModel) (st : ScanState),
    (found.map (fun p => p.post_name)).Nodup →
    (∀ p ∈ found, p.post_name ∉ st.global_data.map Prod.fst) →
    (found.foldl scanInsert st).global_data =
      st.global_data ++ found.map (fun p => (p.post_name, p)) := by
  intro found
  induction found with
  | nil => intro st _ _; simp
  | cons p rest ih =>
      intro st hnd hdisj
      rw [List.foldl_cons]
      have hfresh : st.global_data.lookup p.post_name = none :=
        lookup_eq_none _ _ (hdisj p (by simp))
      have hstep : (scanInsert st p).global_data =
          st.global_data ++ [(p.post_name, p)] := by
        show dictSet st.global_data p.post_name p = _
        exact dictSet_fresh _ _ _ hfresh
      have hnd2 : p.post_name ∉ rest.map (fun q => q.post_name) ∧
          (rest.map (fun q => q.post_name)).Nodup := by
        rw [List.map_cons] at hnd
        exact List.nodup_cons.mp hnd
      rw [ih (scanInsert st p) hnd2.2 ?_, hstep]
      · simp
      · intro q hq
        rw [hstep]
        simp only [List.map_append, List.mem_append, List.map_cons,
          List.map_nil, List.mem_singleton, not_or]
        refine ⟨hdisj q (by simp [hq]), ?_⟩
        intro he
        exact hnd2.1 (he ▸ List.mem_map_of_mem (fun x => x.post_name) hq)

/-- Stability of `orderedInsert` for the date order: inserting an element
whose scan index is below every listed one preserves the tie-index
invariant. -/
theorem orderedInsert_stable (g : PostModel → Nat) (a : PostModel) :
    ∀ (l : List PostModel),
    l.Pairwise (fun x y => x.date = y.date → g x < g y) →
    (∀ b ∈ l, a.date = b.date → g a < g b) →
    (List.orderedInsert postDateLe a l).Pairwise
      (fun x y => x.date = y.date → g x < g y) := by
  intro l
  induction l with
  | nil => intro _ _; simp
  | cons b t ih =>
      intro hl ha
      rw [List.orderedInsert]
      by_cases hab : postDateLe a b
      · rw [if_pos hab]
        refine List.Pairwise.cons ?_ hl
        intro c hc
        rcases List.mem_cons.mp hc with rfl | hct
        · exact ha c (by simp)
        · exact ha c (by simp [hct])
      · rw [if_neg hab]
        rcases List.pairwise_cons.mp hl with ⟨hbt, ht⟩
        refine List.Pairwise.cons ?_ (ih ht (fun c hc => ha c (by simp [hc])))
        intro c hc
        rcases (List.mem_orderedInsert _).mp hc with rfl | hct
        · intro hdate
          exfalso
          apply hab
          unfold postDateLe dateLe
          rw [hdate]
          omega
        · exact hbt c hct

/-- Stability of the modelled `list.sort`: on a list with strictly
increasing scan indexes, equal-date elements keep their index order. -/
theorem insertionSort_stable (g : PostModel → Nat) :
    ∀ (l : List PostModel), l.Pairwise (fun x y => g x < g y) →
    (List.insertionSort postDateLe l).Pairwise
      (fun x y => x.date = y.date → g x < g y) := by
  intro l
  induction l with
  | nil => intro _; simp
  | cons a t ih =>
      intro h
      rcases List.pairwise_cons.mp h with ⟨hat, ht⟩
      rw [List.insertionSort]
      apply orderedInsert_stable g a _ (ih ht)
      intro b hb _
      exact hat b ((List.mem_insertionSort _).mp hb)

/-- A duplicate-free list has strictly increasing `indexOf` along itself. -/
theorem pairwise_indexOf (l : List PostModel) (h : l.Nodup) :
    l.Pairwise (fun a b => l.indexOf a < l.indexOf b) := by
  induction l with
  | nil => simp
  | cons a t ih =>
      rcases List.nodup_cons.mp h with ⟨hat, ht⟩
      refine List.Pairwise.cons ?_ (List.Pairwise.imp_of_mem ?_ (ih ht))
      · intro b hb
        have hba : b ≠ a := fun he => hat (he ▸ hb)
        rw [List.indexOf_cons_self, List.indexOf_cons_ne _ (Ne.symm hba)]
        omega
      · intro x y hx hy hxy
        have hxa : x ≠ a := fun he => hat (he ▸ hx)
        have hya : y ≠ a := fun he => hat (he ▸ hy)
        rw [List.indexOf_cons_ne _ (Ne.symm hxa), List.indexOf_cons_ne _ (Ne.symm hya)]
        omega

/-- `scanInsert` leaves the timeline untouched, so the fold does too. -/
theorem foldl_scanInsert_timeline : ∀ (found : List PostModel) (st : ScanState),
    (found.foldl scanInsert st).timeline = st.timeline := by
  intro found
  induction found with
  | nil => intro st; rfl
  | cons p rest ih =>
      intro st
      rw [List.foldl_cons, ih]
      rfl

/-- Projecting the values back out of the keyed global-data entries. -/
theorem map_snd_pair (l : List PostModel) :
    List.map (Prod.snd ∘ fun p : PostModel => (p.post_name, p)) l = l := by
  induction l with
  | nil => rfl
  | cons q qs ihq => simp only [List.map_cons, ihq, Function.comp_apply]

/-- The timeline built by a first scan from a fresh state: ascending stable
sort of the scanned posts, then reversed. -/
theorem scan_timeline_eq (found : List PostModel)
    (hnd : (found.map (fun p => p.post_name)).Nodup) :
    (scanPosts found initialScanState).timeline =
      (List.insertionSort postDateLe found).reverse := by
  have hgd : (found.foldl scanInsert initialScanState).global_data =
      found.map (fun p => (p.post_name, p)) := by
    have := scan_global_data found initialScanState hnd
      (by intro p _; simp [initialScanState])
    simpa [initialScanState] using this
  unfold scanPosts
  rw [if_neg (by simp [initialScanState])]
  simp only [hgd, foldl_scanInsert_timeline]
  simp only [initialScanState, List.map_map, List.nil_append]
  rw [map_snd_pair]

/-- C7 amended: after a first scan the timeline holds each scanned entity
once (as a permutation of the scanned posts, identifiers being distinct),
sorted by date descending — but entities of equal date appear in the
*reverse* of their scan order, because the ascending stable sort is then
reversed. -/
theorem scan_timeline_amended (found : List PostModel)
    (hnd : (found.map (fun p => p.post_name)).Nodup) :
    (scanPosts found initialScanState).timeline.Perm found ∧
    List.Pairwise (fun a b => postDateLe b a)
      (scanPosts found initialScanState).timeline ∧
    List.Pairwise (fun a b => a.date = b.date →
      found.indexOf b < found.indexOf a)
      (scanPosts found initialScanState).timeline := by
  rw [scan_timeline_eq found hnd]
  refine ⟨(List.reverse_perm _).trans (List.perm_insertionSort _ _), ?_, ?_⟩
  · exact List.pairwise_reverse.mpr (List.sorted_insertionSort postDateLe found)
  · apply List.pairwise_reverse.mpr
    have hsta := insertionSort_stable (fun p => found.indexOf p) found
      (pairwise_indexOf found (List.Nodup.of_map _ hnd))
    exact hsta.imp (fun h e => h e.symm)

/-- A concrete post with a chosen identifier and date. -/
def postN (nm : String) (k : Nat) : PostModel := { postW k with post_name := nm }

/-- C7 counterexample: two equal-date posts scanned in the order `a`, `b`
end up in the timeline in the order `b`, `a` — the reverse of their scan
order, not the scan order the claim states. -/
theorem scan_timeline_tie_counterexample :
    (scanPosts [postN "a" 5, postN "b" 5] initialScanState).timeline =
      [postN "b" 5, postN "a" 5] ∧
    (scanPosts [postN "a" 5, postN "b" 5] initialScanState).timeline ≠
      [postN "a" 5, postN "b" 5] := by
  constructor
  · decide
  · decide

/-- C7 witness: the amended statement at a concrete two-post scan. -/
theorem scan_timeline_amended_witness :
    (scanPosts [postN "a" 5, postN "b" 5] initialScanState).timeline.Perm
      [postN "a" 5, postN "b" 5] ∧
    List.Pairwise (fun a b => postDateLe b a)
      (scanPosts [postN "a" 5, postN "b" 5] initialScanState).timeline ∧
    List.Pairwise (fun a b => a.date = b.date →
      [postN "a" 5, postN "b" 5].indexOf b < [postN "a" 5, postN "b" 5].indexOf a)
      (scanPosts [postN "a" 5, postN "b" 5] initialScanState).timeline :=
  scan_timeline_amended [postN "a" 5, postN "b" 5] (by decide)

/-- C8: `scan_posts` is idempotent — the first call leaves the scanned flag
set, and a second call returns the state unchanged. -/
theorem scan_posts_idempotent (found : List PostModel) (st : ScanState) :
    (scanPosts found st).scanned = true ∧
    scanPosts found (scanPosts found st) = scanPosts found st := by
  have h : (scanPosts found st).scanned = true := by
    unfold scanPosts
    by_cases hs : st.scanned
    · rw [if_pos hs]
      exact hs
    · rw [if_neg hs]
  refine ⟨h, ?_⟩
  nth_rewrite 1 [scanPosts]
  rw [if_pos h]

instance (a b : Int × String) : Decidable (keyLt a b) := by
  unfold keyLt; infer_instance

/-- C2 witness: the amended statement applied to a concrete key-sorted
mapping (compared with itself, the identity permutation). -/
theorem config_changed_fingerprint_amended_witness :
    configDigest (.dict [((0 : Int), "x"), (8, "y")]) =
      configDigest (.dict [((0 : Int), "x"), (8, "y")]) :=
  config_changed_fingerprint_amended.2 _ _ (by decide) (by decide)
    (List.Perm.refl _)

/-- C3 witness: the characterization applied to a concrete string context,
whose digest is the string itself. -/
theorem config_changed_characterization_witness :
    configChangedCall (.str "abc") none = .ok ⟨"abc", false⟩ ∧
    ∀ prev, ∃ r, configChangedCall (.str "abc") (some prev) = .ok r ∧
      r.digest = "abc" ∧ (r.uptodate = true ↔ prev = "abc") :=
  config_changed_characterization.2.2.2.2 (PyObj.str "abc") "abc" rfl
